import Mathlib

/-!
# hermes `lib/Support/Conversions.cpp`

A shallow embedding of the two conversions of `Conversions.cpp`:

* `truncateToInt32SlowPath` (ES5.1 9.5, `ToInt32` / `ToUint32`), and
* `numberToString` (ES5.1 9.8.1),

followed by theorems about them.

Conventions of the embedding.

* A `double` is its IEEE-754 binary64 bit pattern, a natural number below `2^64`
  (what `safeTypeCast<double, uint64_t>` yields).
* `int`, `int32_t` and `int64_t` values are integers; every conversion to one of
  these types and every arithmetic result of one of these types is reduced with
  `toInt32` / `toInt64` (two's complement wrap-around), `uint64_t` results with
  `toUInt64`.
* The output buffer is the list of characters stored through `destPtr`, in
  address order starting at `dest[0]`.
* The external digit generator `g_dtoa` is a parameter.
-/

namespace hermes

/-! ## Machine integers -/

/-- Value of the 32-bit two's complement pattern congruent to `x` (conversion to `int32_t`). -/
def toInt32 (x : Int) : Int := (x + 2147483648) % 4294967296 - 2147483648

/-- Value of the 64-bit two's complement pattern congruent to `x` (conversion to `int64_t`). -/
def toInt64 (x : Int) : Int :=
  (x + 9223372036854775808) % 18446744073709551616 - 9223372036854775808

/-- The 32-bit pattern of `x` read as unsigned (conversion to `uint32_t`). -/
def toUInt32 (x : Int) : Nat := (x % 4294967296).toNat

/-- The 64-bit pattern of `x` read as unsigned (conversion to `uint64_t`). -/
def toUInt64 (x : Int) : Nat := (x % 18446744073709551616).toNat

/-- Bitwise `a & b` on two `int` operands: the conjunction of the two 32-bit patterns. -/
def andInt (a b : Int) : Int := toInt32 ((toUInt32 a &&& toUInt32 b : Nat) : Int)

/-- The C library `abs` on `int`. -/
def absInt (x : Int) : Int := toInt32 (if x < 0 then -x else x)

/-! ## `truncateToInt32SlowPath` -/

/-- Embedding of `int32_t truncateToInt32SlowPath(double d)`; `d` is the bit pattern. -/
def truncateToInt32SlowPath (d : Nat) : Int :=
  -- uint64_t bits = safeTypeCast<double, uint64_t>(tmp);
  let bits : Nat := d
  -- int exp = (int)(bits >> 52) & 0x7FF;
  let exp : Int := andInt (toInt32 ((bits >>> 52 : Nat) : Int)) 0x7FF
  -- int sign = 1 - ((int)((int64_t)bits >> 62) & 2);
  let sign : Int := toInt32 (1 - andInt (toInt32 (toInt64 (bits : Int) >>> (62 : Nat))) 2)
  -- uint64_t m = bits & 0xFFFFFFFFFFFFFul;
  let m : Nat := bits &&& 0xFFFFFFFFFFFFF
  -- if (!exp) return 0;
  if exp = 0 then 0
  else
    -- exp -= 1023 + 52;
    let exp : Int := toInt32 (exp - (1023 + 52))
    -- m |= 1ull << 52;
    let m : Nat := m ||| toUInt64 (((1 <<< 52 : Nat) : Int))
    if exp ≥ 0 then
      -- return exp <= 31 ? sign * (int32_t)(m << exp) : 0;
      if exp ≤ 31 then
        toInt32 (toInt32 (sign * toInt32 ((toUInt64 ((m <<< exp.toNat : Nat) : Int) : Nat) : Int)))
      else toInt32 0
    else
      -- return exp > -53 ? sign * (int64_t)(m >> -exp) : 0;
      if exp > -53 then
        toInt32 (toInt64 (sign * toInt64 ((m >>> (toInt32 (-exp)).toNat : Nat) : Int)))
      else toInt32 (toInt64 0)

/-- The local `exp` after `exp -= 1023 + 52` (the aligned exponent). -/
def alignedExp (bits : Nat) : Int :=
  toInt32 (andInt (toInt32 ((bits >>> 52 : Nat) : Int)) 0x7FF - (1023 + 52))

/-- The local `sign`. -/
def signOf (bits : Nat) : Int :=
  toInt32 (1 - andInt (toInt32 (toInt64 (bits : Int) >>> (62 : Nat))) 2)

/-- The local `m` after `m |= 1ull << 52`. -/
def significand (bits : Nat) : Nat :=
  (bits &&& 0xFFFFFFFFFFFFF) ||| toUInt64 (((1 <<< 52 : Nat) : Int))

/-- The operand `m >> -exp` of the right-shift branch. -/
def rightShifted (bits : Nat) : Nat :=
  significand bits >>> (toInt32 (-(alignedExp bits))).toNat

/-- The mathematical value of the product `sign * (int64_t)(m >> -exp)`, before any
reduction to 64 bits. -/
def rightShiftProduct (bits : Nat) : Int :=
  signOf bits * toInt64 ((rightShifted bits : Nat) : Int)

/-- The mathematical value of the product `sign * (int32_t)(m << exp)`, before any
reduction to 32 bits. -/
def leftShiftProduct (bits : Nat) : Int :=
  signOf bits *
    toInt32 ((toUInt64 ((significand bits <<< (alignedExp bits).toNat : Nat) : Int) : Nat) : Int)

/-! ## IEEE-754 binary64 fields and the conversion from `int32_t` -/

/-- Sign bit of a bit pattern. -/
def signBit (bits : Nat) : Nat := bits / 2 ^ 63 % 2

/-- Biased exponent field (11 bits) of a bit pattern. -/
def biasedExp (bits : Nat) : Nat := bits / 2 ^ 52 % 2048

/-- Fraction field (52 bits) of a bit pattern. -/
def fraction (bits : Nat) : Nat := bits % 2 ^ 52

/-- The bit pattern with the given sign, biased exponent and fraction fields. -/
def mkDouble (s e f : Nat) : Nat := s * 2 ^ 63 + e * 2 ^ 52 + f

/-- Position of the highest set bit of `a` (0 for `a < 2`); `fuel` bounds the number of halvings. -/
def highBit : Nat → Nat → Nat
  | 0, _ => 0
  | fuel + 1, a => if a < 2 then 0 else highBit fuel (a / 2) + 1

/-- The conversion `(double)i` of an `int32_t` value `i`, as a bit pattern.  Every `int32_t` is
exactly representable: with `a = |i| = 2^p + r`, `r < 2^p`, the result has biased exponent
`1023 + p` and fraction `r * 2^(52 - p)`; zero converts to `+0`. -/
def int32ToDouble (i : Int) : Nat :=
  if i = 0 then 0
  else
    let a : Nat := i.natAbs
    let p : Nat := highBit 32 a
    mkDouble (if i < 0 then 1 else 0) (1023 + p) ((a - 2 ^ p) * 2 ^ (52 - p))

/-- The double `-d`: the bit pattern of `d` with the sign bit (bit 63) toggled. -/
def negDouble (bits : Nat) : Nat :=
  if bits < 2 ^ 63 then bits + 2 ^ 63 else bits - 2 ^ 63

/-- The exact value of a finite double rounded toward zero, as the spec words it: zero when the
biased exponent field is zero, and otherwise `(-1)^s * floor((2^52 + f) * 2^(e - 1075))`. -/
def truncSpec (bits : Nat) : Int :=
  if biasedExp bits = 0 then 0
  else (-1) ^ signBit bits *
    ⌊((2 ^ 52 + fraction bits : Nat) : ℚ) * (2 : ℚ) ^ ((biasedExp bits : Int) - 1075)⌋

/-- The value `truncateToInt32SlowPath` takes on each range of the exponent field, in terms of
the three fields (used to reason about the bit-level code). -/
def truncClosed (bits : Nat) : Int :=
  let e := biasedExp bits
  let M := 2 ^ 52 + fraction bits
  let sg : Int := if signBit bits = 0 then 1 else -1
  if e = 0 then 0
  else if 1075 ≤ e then
    if e ≤ 1106 then toInt32 (sg * ((M * 2 ^ (e - 1075) : Nat) : Int)) else 0
  else if 1022 < e then toInt32 (sg * ((M / 2 ^ (1075 - e) : Nat) : Int)) else 0

/-- The magnitude whose signed low 32 bits `truncateToInt32SlowPath` returns: the shifted
significand on the two shifting ranges of the exponent field, zero elsewhere. -/
def truncMagnitude (bits : Nat) : Nat :=
  let e := biasedExp bits
  let M := 2 ^ 52 + fraction bits
  if e = 0 then 0
  else if 1075 ≤ e then (if e ≤ 1106 then M * 2 ^ (e - 1075) else 0)
  else if 1022 < e then M / 2 ^ (1075 - e) else 0

/-- The factor `sign` of the source: `-1` when the sign bit is set, `1` otherwise. -/
def signFactor (bits : Nat) : Int := if signBit bits = 0 then 1 else -1

/-- The rational value of a finite double: `(-1)^s * (2^52 + f) * 2^(e - 1075)` for a normal
number, `(-1)^s * f * 2^(-1074)` when the exponent field is zero. -/
def doubleValue (bits : Nat) : ℚ :=
  (-1) ^ signBit bits *
    (if biasedExp bits = 0 then (fraction bits : ℚ) * (2 : ℚ) ^ (-1074 : Int)
     else ((2 ^ 52 + fraction bits : Nat) : ℚ) * (2 : ℚ) ^ ((biasedExp bits : Int) - 1075))

/-- Rounding a rational toward zero: the floor of a non-negative value, the ceiling of a
negative one. -/
def roundTowardZero (q : ℚ) : Int := if 0 ≤ q then ⌊q⌋ else ⌈q⌉

/-! ## `numberToString` -/

/-- `std::isnan(m)`: exponent field all ones and a non-zero fraction. -/
def isnan (m : Nat) : Bool := biasedExp m == 2047 && fraction m != 0

/-- The comparison `m == 0` on doubles: true of `+0` and `-0` only. -/
def isZero (m : Nat) : Bool := m % 2 ^ 63 == 0

/-- Bit pattern of `std::numeric_limits<double>::infinity()`. -/
def infinity : Nat := 0x7FF0000000000000

/-- Bit pattern of `-std::numeric_limits<double>::infinity()`. -/
def negInfinity : Nat := 0xFFF0000000000000

/-- What `g_dtoa(m, 0, 0, &n, &sign, &sEnd)` hands back: the returned pointer `s`, the
characters `s[0 .. sEnd - s)`, the decimal point index `n` and whether `sign` is non-zero. -/
structure DtoaResult where
  ptr : Nat
  s : List Char
  n : Int
  sign : Bool
  deriving DecidableEq, Repr

/-- Calls into the digit generator, in the order they are made. -/
inductive DtoaCall where
  | g_dtoa (m : Nat) (ptr : Nat)
  | g_freedtoa (ptr : Nat)
  deriving DecidableEq, Repr

/-- The observable outcome of one call of `numberToString`: the characters stored at
`dest[0]`, `dest[1]`, ... (terminator included), the returned length, and the generator calls. -/
structure Output where
  dest : List Char
  ret : Nat
  calls : List DtoaCall
  deriving DecidableEq, Repr

/-- The terminating character `'\0'`. -/
def NUL : Char := Char.ofNat 0

/-- The read `s[i]`. -/
def charAt (s : List Char) (i : Int) : Char := s.getD i.toNat NUL

/-- The characters stored by `for (int i = lo; i < hi; ++i) *destPtr++ = body(i);`. -/
def forLoop (lo hi : Int) (body : Int → Char) : List Char :=
  (List.range (hi - lo).toNat).map fun (t : Nat) => body (lo + (t : Int))

/-- The characters `strcpy(dest, str)` stores: those of `str` and the terminator. -/
def strcpy (str : List Char) : List Char := str ++ [NUL]

/-- The characters `snprintf(nBuf, sizeof(nBuf), "%d", x)` produces for an `int` `x`
(at most 11, so the 32-byte `nBuf` never truncates them); the value returned is their number. -/
def snprintfInt (x : Int) : List Char :=
  if x < 0 then '-' :: Nat.toDigits 10 (-x).toNat else Nat.toDigits 10 x.toNat

/-- Modelled from the spec: `NUMBER_TO_STRING_BUF_SIZE` is declared in the header
`hermes/Support/Conversions.h`, which is not part of the sources at hand; it is the
"documented minimum capacity" of the destination buffer and its upstream value is 32. -/
def NUMBER_TO_STRING_BUF_SIZE : Nat := 32

/-- The characters written on the general path after the optional `'-'` and before the
terminator: the five-way case distinction of ES5.1 9.8.1 steps 6-10, on the generator's
digits `s` and decimal point index `n`. -/
def formatDigits (s : List Char) (n : Int) : List Char :=
  -- int k = sEnd - s;
  let k : Int := toInt32 (s.length : Int)
  if k ≤ n ∧ n ≤ 21 then
    forLoop 0 k (charAt s) ++ forLoop 0 (toInt32 (n - k)) (fun _ => '0')
  else if 0 < n ∧ n ≤ 21 then
    forLoop 0 n (charAt s) ++ ['.'] ++ forLoop n k (charAt s)
  else if -6 < n ∧ n ≤ 0 then
    ['0', '.'] ++ forLoop 0 (toInt32 (-n)) (fun _ => '0') ++ forLoop 0 k (charAt s)
  else if k = 1 then
    let nBuf := snprintfInt (absInt (toInt32 (n - 1)))
    let nLen : Int := nBuf.length
    [charAt s 0, 'e', if toInt32 (n - 1) < 0 then '-' else '+'] ++ forLoop 0 nLen (charAt nBuf)
  else
    let nBuf := snprintfInt (absInt (toInt32 (n - 1)))
    let nLen : Int := nBuf.length
    [charAt s 0, '.'] ++ forLoop 1 k (charAt s)
      ++ ['e', if toInt32 (n - 1) < 0 then '-' else '+'] ++ forLoop 0 nLen (charAt nBuf)

/-- Embedding of `size_t numberToString(double m, char *dest, size_t destSize)`, with the
digit generator as the parameter `g_dtoa`. -/
def numberToString (g_dtoa : Nat → DtoaResult) (m : Nat) : Output :=
  if isnan m then ⟨strcpy ['N', 'a', 'N'], 3, []⟩
  else if isZero m then ⟨strcpy ['0'], 1, []⟩
  else if m = infinity then ⟨strcpy ['I', 'n', 'f', 'i', 'n', 'i', 't', 'y'], 8, []⟩
  else if m = negInfinity then
    ⟨strcpy ['-', 'I', 'n', 'f', 'i', 'n', 'i', 't', 'y'], 9, []⟩
  else
    -- char *s = ::g_dtoa(m, 0, 0, &n, &sign, &sEnd);
    let r := g_dtoa m
    -- if (sign) *destPtr++ = '-';
    let neg : List Char := if r.sign then ['-'] else []
    -- *destPtr++ = '\0';
    let written := neg ++ formatDigits r.s r.n ++ [NUL]
    -- g_freedtoa(s); return destPtr - dest - 1;
    ⟨written, written.length - 1, [DtoaCall.g_dtoa m r.ptr, DtoaCall.g_freedtoa r.ptr]⟩

/-- The inputs answered by the fast paths: NaN, `+0`, `-0`, `+Infinity`, `-Infinity`. -/
def isSpecial (m : Nat) : Bool := isnan m || isZero m || m == infinity || m == negInfinity

/-- The optional leading `'-'` of the general path. -/
def signPrefix (sign : Bool) : List Char := if sign then ['-'] else []

/-- The contents of the destination buffer after the call, given its contents `buf` before:
the stored characters overwrite the first cells, the remaining cells are untouched. -/
def bufferAfter (buf written : List Char) : List Char := written ++ buf.drop written.length

/-- Number of `g_dtoa` calls in a call sequence. -/
def acquireCount (calls : List DtoaCall) : Nat :=
  calls.countP fun c => match c with
    | DtoaCall.g_dtoa _ _ => true
    | DtoaCall.g_freedtoa _ => false

/-- Number of `g_freedtoa` calls in a call sequence. -/
def releaseCount (calls : List DtoaCall) : Nat :=
  calls.countP fun c => match c with
    | DtoaCall.g_dtoa _ _ => false
    | DtoaCall.g_freedtoa _ => true

/-! ## The reads behind the stores -/

/-- Where a character stored through `destPtr` comes from: a literal of the program text, the
read `s[i]` of the generator's digits, or the read `nBuf[i]` of the printed exponent. -/
inductive Store where
  | lit (c : Char)
  | readS (i : Int)
  | readNBuf (i : Int)
  deriving DecidableEq, Repr

/-- The stores of `for (int i = lo; i < hi; ++i) *destPtr++ = body(i);`, in order. -/
def forLoopStores (lo hi : Int) (body : Int → Store) : List Store :=
  (List.range (hi - lo).toNat).map fun (t : Nat) => body (lo + (t : Int))

/-- The stores of the five-way case distinction of `numberToString`, in order, each with the
read it performs; `k` is `sEnd - s` and `nLen` the value `snprintf` returned. -/
def formatStores (s : List Char) (n : Int) : List Store :=
  let k : Int := toInt32 (s.length : Int)
  if k ≤ n ∧ n ≤ 21 then
    forLoopStores 0 k Store.readS ++ forLoopStores 0 (toInt32 (n - k)) (fun _ => Store.lit '0')
  else if 0 < n ∧ n ≤ 21 then
    forLoopStores 0 n Store.readS ++ [Store.lit '.'] ++ forLoopStores n k Store.readS
  else if -6 < n ∧ n ≤ 0 then
    [Store.lit '0', Store.lit '.'] ++ forLoopStores 0 (toInt32 (-n)) (fun _ => Store.lit '0')
      ++ forLoopStores 0 k Store.readS
  else if k = 1 then
    let nBuf := snprintfInt (absInt (toInt32 (n - 1)))
    let nLen : Int := nBuf.length
    [Store.readS 0, Store.lit 'e', Store.lit (if toInt32 (n - 1) < 0 then '-' else '+')]
      ++ forLoopStores 0 nLen Store.readNBuf
  else
    let nBuf := snprintfInt (absInt (toInt32 (n - 1)))
    let nLen : Int := nBuf.length
    [Store.readS 0, Store.lit '.'] ++ forLoopStores 1 k Store.readS
      ++ [Store.lit 'e', Store.lit (if toInt32 (n - 1) < 0 then '-' else '+')]
      ++ forLoopStores 0 nLen Store.readNBuf

/-- The character a store puts into the destination, given the contents of `s` and `nBuf`. -/
def storeValue (s nBuf : List Char) : Store → Char
  | Store.lit c => c
  | Store.readS i => charAt s i
  | Store.readNBuf i => charAt nBuf i

/-! ## Reading a decimal literal -/

/-- Value of a sequence of decimal digit characters read as a natural number. -/
def digitsValue (ds : List Char) : Nat :=
  ds.foldl (fun acc c => 10 * acc + (c.toNat - 48)) 0

/-- The exponent part of a decimal literal: nothing, or `e` with an explicit sign and at
least one digit. -/
def readExponent : List Char → Option Int
  | [] => some 0
  | 'e' :: '+' :: ds =>
    if ds ≠ [] ∧ ds.all Char.isDigit then some (digitsValue ds) else none
  | 'e' :: '-' :: ds =>
    if ds ≠ [] ∧ ds.all Char.isDigit then some (-(digitsValue ds : Int)) else none
  | _ => none

/-- The fraction digits of a decimal literal, read after its integer digits: those after a
`.`, none if there is no `.`. -/
def fractionDigits : List Char → List Char
  | '.' :: r => r.takeWhile Char.isDigit
  | _ => []

/-- What follows the optional `.` and fraction digits of a decimal literal. -/
def afterFraction : List Char → List Char
  | '.' :: r => r.dropWhile Char.isDigit
  | rest => rest

/-- The rational a decimal literal denotes: an optional `-`, one or more integer digits, an
optional `.` with fraction digits, an optional exponent part; `none` for any other string. -/
def readDecimal (cs : List Char) : Option ℚ :=
  let neg : Bool := cs.head? == some '-'
  let body : List Char := if neg then cs.tail else cs
  let ip : List Char := body.takeWhile Char.isDigit
  let rest : List Char := body.dropWhile Char.isDigit
  let fp : List Char := fractionDigits rest
  let rest2 : List Char := afterFraction rest
  if ip = [] then none
  else
    match readExponent rest2 with
    | none => none
    | some e =>
      some ((if neg then -1 else 1) * (digitsValue (ip ++ fp) : ℚ)
        * (10 : ℚ) ^ (e - (fp.length : Int)))

/-- Value `(-1)^sign * s * 10^(n - k)` the generator reports, `s` read as an integer. -/
def dtoaValue (r : DtoaResult) : ℚ :=
  (if r.sign then -1 else 1) * (digitsValue r.s : ℚ) * (10 : ℚ) ^ (r.n - (r.s.length : Int))

/-- The formatter's output as the spec words it: the first matching case of A..E. -/
def formatSpec (s : List Char) (n : Int) : List Char :=
  let k : Int := s.length
  if k ≤ n ∧ n ≤ 21 then s ++ List.replicate (n - k).toNat '0'
  else if 0 < n ∧ n ≤ 21 then s.take n.toNat ++ ['.'] ++ s.drop n.toNat
  else if -6 < n ∧ n ≤ 0 then ['0', '.'] ++ List.replicate (-n).toNat '0' ++ s
  else if k = 1 then
    s ++ ['e', if n - 1 < 0 then '-' else '+'] ++ Nat.toDigits 10 (n - 1).natAbs
  else
    s.take 1 ++ ['.'] ++ s.drop 1 ++ ['e', if n - 1 < 0 then '-' else '+']
      ++ Nat.toDigits 10 (n - 1).natAbs

/-- A normalised digit string of the generator: non-empty, made of `'0'..'9'`, with no leading
and no trailing `'0'`. -/
def isNormalised (s : List Char) : Bool :=
  !s.isEmpty && s.all Char.isDigit && s.head? != some '0' && s.getLast? != some '0'

/-- A generator that returns the same result for every input (a test double). -/
def constDtoa (r : DtoaResult) : Nat → DtoaResult := fun _ => r

/-! ## Theorems -/

/-! ### Machine integers and field extraction -/

theorem toInt32_of_range {x : Int} (h1 : -2147483648 ≤ x) (h2 : x < 2147483648) :
    toInt32 x = x := by
  unfold toInt32; omega

theorem toInt32_range (x : Int) : -2147483648 ≤ toInt32 x ∧ toInt32 x < 2147483648 := by
  unfold toInt32; omega

theorem toInt32_emod (x : Int) : toInt32 x % 4294967296 = x % 4294967296 := by
  unfold toInt32; omega

theorem toInt64_of_range {x : Int} (h1 : -9223372036854775808 ≤ x)
    (h2 : x < 9223372036854775808) : toInt64 x = x := by
  unfold toInt64; omega

theorem toUInt32_natCast {x : Nat} (h : x < 4294967296) : toUInt32 (x : Int) = x := by
  unfold toUInt32; omega

theorem toUInt64_natCast (x : Nat) : toUInt64 (x : Int) = x % 18446744073709551616 := by
  unfold toUInt64; omega

/-- The exponent field extraction `(int)(bits >> 52) & 0x7FF`. -/
theorem expField_eq (bits : Nat) (h : bits < 2 ^ 64) :
    andInt (toInt32 ((bits >>> 52 : Nat) : Int)) 0x7FF = (biasedExp bits : Int) := by
  have h1 : bits >>> 52 = bits / 2 ^ 52 := Nat.shiftRight_eq_div_pow bits 52
  have h2 : bits / 2 ^ 52 < 4096 := by
    rw [Nat.div_lt_iff_lt_mul (by positivity)]; norm_num at h ⊢; omega
  have h3 : toInt32 ((bits >>> 52 : Nat) : Int) = ((bits / 2 ^ 52 : Nat) : Int) := by
    rw [h1]; apply toInt32_of_range <;> omega
  have h4 : (bits / 2 ^ 52) &&& 2047 = bits / 2 ^ 52 % 2048 :=
    Nat.and_pow_two_sub_one_eq_mod (bits / 2 ^ 52) 11
  unfold andInt biasedExp
  rw [h3, toUInt32_natCast (by omega)]
  have h5 : toUInt32 (0x7FF : Int) = 2047 := by decide
  rw [h5, h4]
  apply toInt32_of_range <;> omega

/-- The sign extraction `1 - ((int)((int64_t)bits >> 62) & 2)`. -/
theorem signField_eq (bits : Nat) (h : bits < 2 ^ 64) :
    toInt32 (1 - andInt (toInt32 (toInt64 (bits : Int) >>> (62 : Nat))) 2)
      = if signBit bits = 0 then 1 else -1 := by
  have hs : toInt64 (bits : Int) >>> (62 : Nat) = toInt64 (bits : Int) / 4611686018427387904 := by
    rw [Int.shiftRight_eq_div_pow]; norm_num
  rw [hs]
  norm_num at h
  unfold signBit
  have hq : bits / 2 ^ 63 = bits / 9223372036854775808 := by norm_num
  rw [hq]
  have hc : toInt64 (bits : Int) / 4611686018427387904 = 0 ∨
      toInt64 (bits : Int) / 4611686018427387904 = 1 ∨
      toInt64 (bits : Int) / 4611686018427387904 = -1 ∨
      toInt64 (bits : Int) / 4611686018427387904 = -2 := by
    unfold toInt64; omega
  have hd : (toInt64 (bits : Int) / 4611686018427387904 < 0) ↔
      ¬ (bits / 9223372036854775808 % 2 = 0) := by
    unfold toInt64; omega
  rcases hc with hc | hc | hc | hc <;> rw [hc] at hd ⊢
  · have : bits / 9223372036854775808 % 2 = 0 := by omega
    rw [if_pos this]; decide
  · have : bits / 9223372036854775808 % 2 = 0 := by omega
    rw [if_pos this]; decide
  · have : ¬ bits / 9223372036854775808 % 2 = 0 := by omega
    rw [if_neg this]; decide
  · have : ¬ bits / 9223372036854775808 % 2 = 0 := by omega
    rw [if_neg this]; decide

/-- The significand `(bits & 0xFFFFFFFFFFFFF) | (1ull << 52)`. -/
theorem significand_eq (bits : Nat) :
    (bits &&& 0xFFFFFFFFFFFFF) ||| toUInt64 (((1 <<< 52 : Nat) : Int))
      = 2 ^ 52 + fraction bits := by
  have h1 : bits &&& 0xFFFFFFFFFFFFF = bits % 2 ^ 52 :=
    Nat.and_pow_two_sub_one_eq_mod bits 52
  have h2 : toUInt64 (((1 <<< 52 : Nat) : Int)) = 2 ^ 52 * 1 := by decide
  have h3 : bits % 2 ^ 52 < 2 ^ 52 := Nat.mod_lt _ (by positivity)
  unfold fraction
  rw [h1, h2, Nat.or_comm, ← Nat.mul_add_lt_is_or h3 1]
  ring

theorem biasedExp_lt (bits : Nat) : biasedExp bits < 2048 := by
  unfold biasedExp; omega

theorem fraction_lt (bits : Nat) : fraction bits < 2 ^ 52 := by
  unfold fraction; exact Nat.mod_lt _ (by positivity)

theorem toInt32_congr {x y : Int} (h : x % 4294967296 = y % 4294967296) :
    toInt32 x = toInt32 y := by
  unfold toInt32
  rw [Int.add_emod x, h, ← Int.add_emod]

theorem toInt32_idem (x : Int) : toInt32 (toInt32 x) = toInt32 x :=
  toInt32_of_range (toInt32_range x).1 (toInt32_range x).2

/-- Narrowing a product with a wrapped 64-bit left shift keeps the low 32 bits. -/
theorem toInt32_mul_shl (sg : Int) (X : Nat) :
    toInt32 (toInt32 (sg * toInt32 ((toUInt64 (X : Int) : Nat) : Int))) = toInt32 (sg * (X : Int)) := by
  rw [toInt32_idem]
  apply toInt32_congr
  rw [Int.mul_emod, toInt32_emod, toUInt64_natCast]
  have h : (((X % 18446744073709551616 : Nat) : Int)) % 4294967296 = (X : Int) % 4294967296 := by
    push_cast
    exact Int.emod_emod_of_dvd _ (by norm_num)
  rw [h, ← Int.mul_emod]

/-- A product of a sign and a significand below `2^53` does not overflow `int64_t`. -/
theorem toInt64_mul_small (sg : Int) (X : Nat) (hsg : sg = 1 ∨ sg = -1)
    (hX : X < 9007199254740992) :
    toInt64 (sg * toInt64 (X : Int)) = sg * (X : Int) := by
  have h1 : toInt64 (X : Int) = (X : Int) := toInt64_of_range (by omega) (by omega)
  rw [h1]
  rcases hsg with rfl | rfl
  · exact toInt64_of_range (by omega) (by omega)
  · exact toInt64_of_range (by omega) (by omega)

theorem truncate_eq_closed (bits : Nat) (h : bits < 2 ^ 64) :
    truncateToInt32SlowPath bits = truncClosed bits := by
  have he := biasedExp_lt bits
  have hf := fraction_lt bits
  simp only [truncateToInt32SlowPath, expField_eq bits h, signField_eq bits h,
    significand_eq bits, truncClosed]
  by_cases h0 : biasedExp bits = 0
  · simp [h0]
  · have h0' : ¬ ((biasedExp bits : Int) = 0) := by omega
    have hexp : toInt32 ((biasedExp bits : Int) - (1023 + 52)) = (biasedExp bits : Int) - 1075 := by
      rw [toInt32_of_range] <;> omega
    rw [if_neg h0', if_neg h0, hexp]
    by_cases h1 : 1075 ≤ biasedExp bits
    · have h1' : (biasedExp bits : Int) - 1075 ≥ 0 := by omega
      rw [if_pos h1', if_pos h1]
      by_cases h2 : biasedExp bits ≤ 1106
      · have h2' : (biasedExp bits : Int) - 1075 ≤ 31 := by omega
        rw [if_pos h2', if_pos h2]
        have hk : ((biasedExp bits : Int) - 1075).toNat = biasedExp bits - 1075 := by omega
        rw [hk, Nat.shiftLeft_eq, toUInt64_natCast]
        generalize (2 ^ 52 + fraction bits) * 2 ^ (biasedExp bits - 1075) = X
        exact toInt32_mul_shl _ X
      · have h2' : ¬ ((biasedExp bits : Int) - 1075 ≤ 31) := by omega
        rw [if_neg h2', if_neg h2]; decide
    · have h1' : ¬ ((biasedExp bits : Int) - 1075 ≥ 0) := by omega
      rw [if_neg h1', if_neg h1]
      by_cases h2 : 1022 < biasedExp bits
      · have h2' : (biasedExp bits : Int) - 1075 > -53 := by omega
        rw [if_pos h2', if_pos h2]
        have hk : (toInt32 (-((biasedExp bits : Int) - 1075))).toNat = 1075 - biasedExp bits := by
          rw [toInt32_of_range] <;> omega
        rw [hk, Nat.shiftRight_eq_div_pow]
        have hX : (2 ^ 52 + fraction bits) / 2 ^ (1075 - biasedExp bits) < 2 ^ 53 := by
          apply lt_of_le_of_lt (Nat.div_le_self _ _); omega
        generalize (2 ^ 52 + fraction bits) / 2 ^ (1075 - biasedExp bits) = X at hX
        norm_num at hX
        rw [toInt64_mul_small _ X (by split_ifs <;> simp) hX]
      · have h2' : ¬ ((biasedExp bits : Int) - 1075 > -53) := by omega
        rw [if_neg h2', if_neg h2]; decide



/-- The floor of a scaled significand, in natural-number arithmetic. -/
theorem floor_scale (M e : Nat) :
    ⌊((M : Nat) : ℚ) * (2 : ℚ) ^ ((e : Int) - 1075)⌋
      = if 1075 ≤ e then ((M * 2 ^ (e - 1075) : Nat) : Int)
        else ((M / 2 ^ (1075 - e) : Nat) : Int) := by
  by_cases h : 1075 ≤ e
  · rw [if_pos h]
    have hz : (e : Int) - 1075 = ((e - 1075 : Nat) : Int) := by omega
    rw [hz, zpow_natCast]
    have : ((M : Nat) : ℚ) * (2 : ℚ) ^ (e - 1075) = ((M * 2 ^ (e - 1075) : Nat) : ℚ) := by
      push_cast; ring
    rw [this]
    exact Int.floor_natCast _
  · rw [if_neg h]
    have hz : (e : Int) - 1075 = -((1075 - e : Nat) : Int) := by omega
    rw [hz, zpow_neg, zpow_natCast]
    have : ((M : Nat) : ℚ) * ((2 : ℚ) ^ (1075 - e))⁻¹
        = ((M : Nat) : ℚ) / ((2 ^ (1075 - e) : Nat) : ℚ) := by
      push_cast; rw [div_eq_mul_inv]
    rw [this, Rat.floor_natCast_div_natCast]
    norm_cast

theorem truncSpec_eq (bits : Nat) :
    truncSpec bits =
      if biasedExp bits = 0 then 0
      else (if signBit bits = 0 then 1 else -1) *
        (if 1075 ≤ biasedExp bits
          then (((2 ^ 52 + fraction bits) * 2 ^ (biasedExp bits - 1075) : Nat) : Int)
          else (((2 ^ 52 + fraction bits) / 2 ^ (1075 - biasedExp bits) : Nat) : Int)) := by
  unfold truncSpec
  rw [floor_scale]
  have hs : signBit bits = 0 ∨ signBit bits = 1 := by unfold signBit; omega
  rcases hs with hs | hs <;> simp [hs]

/-- The closed form is the 32-bit pattern of the exact truncated value. -/
theorem truncClosed_emod (bits : Nat) (hfin : biasedExp bits ≤ 2046) :
    truncClosed bits % 4294967296 = truncSpec bits % 4294967296 := by
  have hf := fraction_lt bits
  rw [truncSpec_eq]
  unfold truncClosed
  simp only []
  by_cases h0 : biasedExp bits = 0
  · simp [h0]
  · rw [if_neg h0, if_neg h0]
    by_cases h1 : 1075 ≤ biasedExp bits
    · rw [if_pos h1, if_pos h1]
      by_cases h2 : biasedExp bits ≤ 1106
      · rw [if_pos h2, toInt32_emod]
      · rw [if_neg h2]
        -- the value is a multiple of 2^32
        obtain ⟨j, hj⟩ : ∃ j, biasedExp bits - 1075 = 32 + j := ⟨biasedExp bits - 1107, by omega⟩
        have hmul : (2 ^ 52 + fraction bits) * 2 ^ (biasedExp bits - 1075)
            = 4294967296 * ((2 ^ 52 + fraction bits) * 2 ^ j) := by
          rw [hj, pow_add]; ring
        rw [hmul]
        generalize (2 ^ 52 + fraction bits) * 2 ^ j = Y
        push_cast
        by_cases hs : signBit bits = 0
        · simp only [hs, if_true]; omega
        · simp only [hs, if_false]; omega
    · rw [if_neg h1, if_neg h1]
      by_cases h2 : 1022 < biasedExp bits
      · rw [if_pos h2, toInt32_emod]
      · rw [if_neg h2]
        have hz : (2 ^ 52 + fraction bits) / 2 ^ (1075 - biasedExp bits) = 0 := by
          apply Nat.div_eq_of_lt
          calc 2 ^ 52 + fraction bits < 2 ^ 53 := by omega
            _ ≤ 2 ^ (1075 - biasedExp bits) := Nat.pow_le_pow_right (by norm_num) (by omega)
        rw [hz]; simp

/-- C1: for every bit pattern of a finite double (biased exponent at most 2046),
`truncateToInt32SlowPath` returns the unique integer `r` with `-2^31 ≤ r < 2^31` that is
congruent modulo `2^32` to the exact value of the double rounded toward zero (`truncSpec`);
read as unsigned, the same 32-bit pattern is that value modulo `2^32` (ToUint32). -/
theorem truncate_low32_of_truncated_value (bits : Nat) (hbits : bits < 2 ^ 64)
    (hfin : biasedExp bits ≤ 2046) :
    -2 ^ 31 ≤ truncateToInt32SlowPath bits ∧ truncateToInt32SlowPath bits < 2 ^ 31 ∧
    truncateToInt32SlowPath bits % 2 ^ 32 = truncSpec bits % 2 ^ 32 ∧
    (∀ r : Int, -2 ^ 31 ≤ r → r < 2 ^ 31 → r % 2 ^ 32 = truncSpec bits % 2 ^ 32 →
      r = truncateToInt32SlowPath bits) ∧
    (toUInt32 (truncateToInt32SlowPath bits) : Int) = truncSpec bits % 2 ^ 32 := by
  have hcl := truncate_eq_closed bits hbits
  have hmod := truncClosed_emod bits hfin
  have hrange : -2147483648 ≤ truncClosed bits ∧ truncClosed bits < 2147483648 := by
    unfold truncClosed
    simp only []
    split_ifs <;> first | exact toInt32_range _ | constructor <;> norm_num
  rw [hcl]
  norm_num
  refine ⟨hrange.1, hrange.2, hmod, ?_, ?_⟩
  · intro r h1 h2 h3
    omega
  · unfold toUInt32
    omega

theorem truncate_low32_of_truncated_value_witness :
    (0xBFF8000000000000 : Nat) < 2 ^ 64 ∧ biasedExp 0xBFF8000000000000 ≤ 2046 ∧
    truncateToInt32SlowPath 0xBFF8000000000000 = -1 ∧
    truncateToInt32SlowPath 0xBFF8000000000000 % 2 ^ 32
      = truncSpec 0xBFF8000000000000 % 2 ^ 32 :=
  ⟨by decide, by decide, by decide,
    (truncate_low32_of_truncated_value 0xBFF8000000000000 (by decide) (by decide)).2.2.1⟩



/-! ### Loops of `numberToString` -/

theorem forLoop_length (lo hi : Int) (body : Int → Char) :
    (forLoop lo hi body).length = (hi - lo).toNat := by
  simp [forLoop]

/-- A copy loop over `s[lo .. hi)` stores that slice of `s`. -/
theorem forLoop_charAt (s : List Char) (lo hi : Int) (h0 : 0 ≤ lo)
    (h1 : hi ≤ (s.length : Int)) :
    forLoop lo hi (charAt s) = (s.drop lo.toNat).take (hi - lo).toNat := by
  apply List.ext_getElem
  · simp [forLoop]; omega
  · intro i h2 h3
    simp only [forLoop, List.length_map, List.length_range] at h2
    simp only [forLoop, List.getElem_map, List.getElem_range, charAt, List.getElem_take,
      List.getElem_drop]
    have hi' : (lo + (i : Int)).toNat = lo.toNat + i := by omega
    rw [hi', List.getD_eq_getElem?_getD, List.getElem?_eq_getElem (by omega)]
    rfl

theorem forLoop_const (hi : Int) (c : Char) :
    forLoop 0 hi (fun _ => c) = List.replicate hi.toNat c := by
  apply List.ext_getElem
  · simp [forLoop]
  · intro i h2 h3
    simp [forLoop]

theorem forLoop_all (s : List Char) : forLoop 0 (s.length : Int) (charAt s) = s := by
  rw [forLoop_charAt s 0 _ (le_refl _) (le_refl _)]
  simp

theorem forLoop_prefix (s : List Char) (n : Int) (_h0 : 0 ≤ n) (h1 : n ≤ (s.length : Int)) :
    forLoop 0 n (charAt s) = s.take n.toNat := by
  rw [forLoop_charAt s 0 _ (le_refl _) h1]
  simp

theorem forLoop_suffix (s : List Char) (n : Int) (h0 : 0 ≤ n) :
    forLoop n (s.length : Int) (charAt s) = s.drop n.toNat := by
  rw [forLoop_charAt s n _ h0 (le_refl _)]
  apply List.take_of_length_le
  simp; omega

theorem charAt_zero (s : List Char) (h : 1 ≤ s.length) : [charAt s 0] = s.take 1 := by
  cases s with
  | nil => simp at h
  | cons c t => simp [charAt]

/-- With no overflow in `abs`, the exponent text is the decimal numeral of `|x|`. -/
theorem snprintf_abs (x : Int) (h1 : -2147483648 < x) (h2 : x < 2147483648) :
    snprintfInt (absInt x) = Nat.toDigits 10 x.natAbs := by
  unfold absInt snprintfInt
  by_cases hn : x < 0
  · have hr : toInt32 (-x) = -x := toInt32_of_range (by omega) (by omega)
    rw [if_pos hn, hr, if_neg (by omega)]
    have e2 : (-x).toNat = x.natAbs := by omega
    rw [e2]
  · have hr : toInt32 x = x := toInt32_of_range (by omega) (by omega)
    rw [if_neg hn, hr, if_neg hn]
    have e : x.toNat = x.natAbs := by omega
    rw [e]

/-- The loops of the general path store what the five cases of the spec describe. -/
theorem formatDigits_eq_formatSpec (s : List Char) (n : Int) (hk : 1 ≤ s.length)
    (hk2 : s.length < 2147483648) (h1 : -2147483647 < n) (h2 : n < 2147483648) :
    formatDigits s n = formatSpec s n := by
  have hkk : toInt32 (s.length : Int) = (s.length : Int) :=
    toInt32_of_range (by omega) (by omega)
  have ht : toInt32 (n - 1) = n - 1 := toInt32_of_range (by omega) (by omega)
  unfold formatDigits formatSpec
  simp only [hkk, ht, snprintf_abs (n - 1) (by omega) (by omega)]
  by_cases hA : (s.length : Int) ≤ n ∧ n ≤ 21
  · have hr : toInt32 (n - (s.length : Int)) = n - (s.length : Int) :=
      toInt32_of_range (by omega) (by omega)
    rw [if_pos hA, if_pos hA, forLoop_all, forLoop_const, hr]
  · rw [if_neg hA, if_neg hA]
    by_cases hB : 0 < n ∧ n ≤ 21
    · rw [if_pos hB, if_pos hB, forLoop_prefix s n (by omega) (by omega),
        forLoop_suffix s n (by omega)]
    · rw [if_neg hB, if_neg hB]
      by_cases hC : -6 < n ∧ n ≤ 0
      · have hr : toInt32 (-n) = -n := toInt32_of_range (by omega) (by omega)
        rw [if_pos hC, if_pos hC, forLoop_all, forLoop_const, hr]
      · rw [if_neg hC, if_neg hC]
        have hloop : forLoop 0 ((Nat.toDigits 10 (n - 1).natAbs).length : Int)
            (charAt (Nat.toDigits 10 (n - 1).natAbs)) = Nat.toDigits 10 (n - 1).natAbs :=
          forLoop_all _
        by_cases hD : (s.length : Int) = 1
        · rw [if_pos hD, if_pos hD, hloop]
          have hs1 : s.take 1 = s := List.take_of_length_le (by omega)
          have := charAt_zero s hk
          rw [hs1] at this
          conv_rhs => rw [← this]
          simp
        · rw [if_neg hD, if_neg hD, hloop]
          have h3 : forLoop 1 (s.length : Int) (charAt s) = s.drop 1 := by
            have := forLoop_suffix s 1 (by omega)
            simpa using this
          rw [h3, ← charAt_zero s hk]; simp

/-! ### `numberToString`: the general path -/

theorem numberToString_general (g_dtoa : Nat → DtoaResult) (m : Nat)
    (hm : isSpecial m = false) :
    numberToString g_dtoa m =
      ⟨signPrefix (g_dtoa m).sign ++ formatDigits (g_dtoa m).s (g_dtoa m).n ++ [NUL],
        (signPrefix (g_dtoa m).sign ++ formatDigits (g_dtoa m).s (g_dtoa m).n ++ [NUL]).length - 1,
        [DtoaCall.g_dtoa m (g_dtoa m).ptr, DtoaCall.g_freedtoa (g_dtoa m).ptr]⟩ := by
  simp only [isSpecial, Bool.or_eq_false_iff, beq_eq_false_iff_ne, ne_eq] at hm
  obtain ⟨⟨⟨h1, h2⟩, h3⟩, h4⟩ := hm
  simp [numberToString, h1, h2, h3, h4, signPrefix]

/-- C2: for a finite non-zero input whose generator output has `k ≥ 1` digits (and `k`, `n`
within `int` range), `numberToString` writes `'-'` if the sign flag is set, then the body of
the first matching case A..E of the spec (`formatSpec`), then the terminator, and returns the
number of characters before the terminator.  The five sample outputs of the spec follow. -/
theorem numberToString_writes_first_matching_case :
    (∀ (g_dtoa : Nat → DtoaResult) (m : Nat), isSpecial m = false →
      1 ≤ (g_dtoa m).s.length → (g_dtoa m).s.length < 2147483648 →
      -2147483647 < (g_dtoa m).n → (g_dtoa m).n < 2147483648 →
      (numberToString g_dtoa m).dest
          = signPrefix (g_dtoa m).sign ++ formatSpec (g_dtoa m).s (g_dtoa m).n ++ [NUL] ∧
      (numberToString g_dtoa m).ret
          = (signPrefix (g_dtoa m).sign ++ formatSpec (g_dtoa m).s (g_dtoa m).n).length) ∧
    formatSpec ['1'] 3 = ['1', '0', '0'] ∧
    formatSpec ['1', '2', '3', '4', '5', '6'] 3 = ['1', '2', '3', '.', '4', '5', '6'] ∧
    formatSpec ['1'] (-3) = ['0', '.', '0', '0', '0', '1'] ∧
    formatSpec ['1'] 22 = ['1', 'e', '+', '2', '1'] ∧
    formatSpec ['1', '5'] (-6) = ['1', '.', '5', 'e', '-', '7'] := by
  refine ⟨?_, by decide, by decide, by decide, by decide, by decide⟩
  intro g_dtoa m hm hk hk2 hn1 hn2
  rw [numberToString_general g_dtoa m hm, formatDigits_eq_formatSpec _ _ hk hk2 hn1 hn2]
  simp

theorem numberToString_writes_first_matching_case_witness :
    (numberToString (constDtoa ⟨0, ['1', '5'], -6, true⟩) 0x3E7AD7F29ABCAF48).dest
      = ['-', '1', '.', '5', 'e', '-', '7', NUL] :=
  (numberToString_writes_first_matching_case.1 (constDtoa ⟨0, ['1', '5'], -6, true⟩)
    0x3E7AD7F29ABCAF48 (by decide) (by decide) (by decide) (by decide) (by decide)).1

/-! ### `numberToString`: the special values -/

theorem isnan_of_isZero (m : Nat) (h : isZero m = true) : isnan m = false := by
  simp only [isZero, beq_iff_eq] at h
  have : biasedExp m = 0 := by
    unfold biasedExp
    norm_num at h ⊢
    omega
  simp [isnan, this]

/-- C3: `numberToString` writes "NaN" and returns 3 for every NaN, writes "0" and returns 1
for `+0` and `-0`, writes "Infinity" and returns 8 for `+Infinity`, "-Infinity" and 9 for
`-Infinity`; the digit generator is called on an input exactly when it is none of these. -/
theorem numberToString_special_values (g_dtoa : Nat → DtoaResult) :
    (∀ m, isnan m = true →
      numberToString g_dtoa m = ⟨['N', 'a', 'N', NUL], 3, []⟩) ∧
    (∀ m, isZero m = true → numberToString g_dtoa m = ⟨['0', NUL], 1, []⟩) ∧
    numberToString g_dtoa 0 = ⟨['0', NUL], 1, []⟩ ∧
    numberToString g_dtoa (2 ^ 63) = ⟨['0', NUL], 1, []⟩ ∧
    numberToString g_dtoa infinity
      = ⟨['I', 'n', 'f', 'i', 'n', 'i', 't', 'y', NUL], 8, []⟩ ∧
    numberToString g_dtoa negInfinity
      = ⟨['-', 'I', 'n', 'f', 'i', 'n', 'i', 't', 'y', NUL], 9, []⟩ ∧
    (∀ m, (numberToString g_dtoa m).calls = [] ↔ isSpecial m = true) := by
  have hz : ∀ m, isZero m = true → numberToString g_dtoa m = ⟨['0', NUL], 1, []⟩ := by
    intro m h
    simp [numberToString, isnan_of_isZero m h, h, strcpy]
  refine ⟨?_, hz, hz 0 (by decide), hz (2 ^ 63) (by decide), ?_, ?_, ?_⟩
  · intro m h
    simp [numberToString, h, strcpy]
  · have h1 : isnan infinity = false := by decide
    have h2 : isZero infinity = false := by decide
    simp [numberToString, h1, h2, strcpy]
  · have h1 : isnan negInfinity = false := by decide
    have h2 : isZero negInfinity = false := by decide
    have h3 : negInfinity ≠ infinity := by decide
    simp [numberToString, h1, h2, h3, strcpy]
  · intro m
    cases hs : isSpecial m
    · rw [numberToString_general g_dtoa m hs]; simp
    · simp only [isSpecial, Bool.or_eq_true, beq_iff_eq] at hs
      unfold numberToString
      split_ifs <;> simp_all

theorem numberToString_special_values_witness :
    numberToString (constDtoa ⟨0, ['1'], 1, false⟩) 0x7FF8000000000000
      = ⟨['N', 'a', 'N', NUL], 3, []⟩ :=
  (numberToString_special_values (constDtoa ⟨0, ['1'], 1, false⟩)).1 0x7FF8000000000000
    (by decide)

/-! ### Decimal numerals (`snprintf` with `%d`) -/

theorem digitChar_isDigit (d : Nat) (h : d < 10) : (Nat.digitChar d).isDigit = true := by
  interval_cases d <;> decide

theorem digitChar_value (d : Nat) (h : d < 10) : (Nat.digitChar d).toNat - 48 = d := by
  interval_cases d <;> decide

theorem toDigitsCore_length (fuel : Nat) :
    ∀ (n : Nat) (ds : List Char) (d : Nat), n < 10 ^ d → d ≤ fuel → 1 ≤ d →
      (Nat.toDigitsCore 10 fuel n ds).length ≤ ds.length + d := by
  induction fuel with
  | zero => intro n ds d _ h1 h2; omega
  | succ fuel ih =>
    intro n ds d hn hd h1
    simp only [Nat.toDigitsCore]
    split_ifs with h0
    · simp; omega
    · have hn10 : 10 ≤ n := by omega
      have hd2 : 2 ≤ d := by
        by_contra hlt
        have : d = 1 := by omega
        subst this
        omega
      have hlt : n / 10 < 10 ^ (d - 1) := by
        rw [Nat.div_lt_iff_lt_mul (by norm_num)]
        have : 10 ^ d = 10 ^ (d - 1) * 10 := by
          rw [← pow_succ]; congr 1; omega
        omega
      have := ih (n / 10) (Nat.digitChar (n % 10) :: ds) (d - 1) hlt (by omega) (by omega)
      simp only [List.length_cons] at this
      omega

theorem toDigits_length_le_three (x : Nat) (h : x < 1000) : (Nat.toDigits 10 x).length ≤ 3 := by
  by_cases h3 : 3 ≤ x + 1
  · have := toDigitsCore_length (x + 1) x [] 3 (by norm_num; omega) h3 (by norm_num)
    simpa [Nat.toDigits] using this
  · have hx : x < 2 := by omega
    interval_cases x <;> decide

theorem toDigitsCore_pos_length (fuel : Nat) :
    ∀ (n : Nat) (ds : List Char), 1 ≤ (Nat.toDigitsCore 10 (fuel + 1) n ds).length := by
  induction fuel with
  | zero =>
    intro n ds
    simp only [Nat.toDigitsCore]
    split_ifs <;> simp
  | succ fuel ih =>
    intro n ds
    rw [Nat.toDigitsCore]
    split_ifs
    · simp
    · exact ih _ _

theorem toDigits_length_pos (x : Nat) : 1 ≤ (Nat.toDigits 10 x).length :=
  toDigitsCore_pos_length x x []

theorem toDigitsCore_all_isDigit (fuel : Nat) :
    ∀ (n : Nat) (ds : List Char), (∀ c ∈ ds, c.isDigit = true) →
      ∀ c ∈ Nat.toDigitsCore 10 fuel n ds, c.isDigit = true := by
  induction fuel with
  | zero => intro n ds h; simpa [Nat.toDigitsCore] using h
  | succ fuel ih =>
    intro n ds h
    have hd : (Nat.digitChar (n % 10)).isDigit = true :=
      digitChar_isDigit _ (Nat.mod_lt _ (by norm_num))
    have hcons : ∀ c ∈ Nat.digitChar (n % 10) :: ds, c.isDigit = true := by
      intro c hc
      rcases List.mem_cons.mp hc with rfl | hc
      · exact hd
      · exact h c hc
    simp only [Nat.toDigitsCore]
    split_ifs
    · exact hcons
    · exact ih _ _ hcons

theorem toDigits_all_isDigit (x : Nat) : ∀ c ∈ Nat.toDigits 10 x, c.isDigit = true :=
  toDigitsCore_all_isDigit (x + 1) x [] (by simp)

theorem digitsValue_cons_aux (ds : List Char) :
    ∀ a : Nat, ds.foldl (fun acc c => 10 * acc + (c.toNat - 48)) a
      = a * 10 ^ ds.length + ds.foldl (fun acc c => 10 * acc + (c.toNat - 48)) 0 := by
  induction ds with
  | nil => intro a; simp
  | cons c t ih =>
    intro a
    simp only [List.foldl_cons, List.length_cons]
    rw [ih (10 * a + (c.toNat - 48)), ih (10 * 0 + (c.toNat - 48))]
    ring

theorem digitsValue_cons (c : Char) (ds : List Char) :
    digitsValue (c :: ds) = (c.toNat - 48) * 10 ^ ds.length + digitsValue ds := by
  unfold digitsValue
  simp only [List.foldl_cons]
  rw [digitsValue_cons_aux ds (10 * 0 + (c.toNat - 48))]
  simp

theorem digitsValue_append (a b : List Char) :
    digitsValue (a ++ b) = digitsValue a * 10 ^ b.length + digitsValue b := by
  unfold digitsValue
  rw [List.foldl_append, digitsValue_cons_aux b]

theorem toDigitsCore_value (fuel : Nat) :
    ∀ (n : Nat) (ds : List Char), n < fuel →
      digitsValue (Nat.toDigitsCore 10 fuel n ds) = n * 10 ^ ds.length + digitsValue ds := by
  induction fuel with
  | zero => intro n ds h; omega
  | succ fuel ih =>
    intro n ds h
    have hv := digitChar_value (n % 10) (Nat.mod_lt _ (by norm_num))
    simp only [Nat.toDigitsCore]
    split_ifs with h0
    · rw [digitsValue_cons, hv]
      have : n % 10 = n := by omega
      rw [this]
    · rw [ih (n / 10) _ (by omega), digitsValue_cons, hv]
      simp only [List.length_cons, pow_succ]
      have hn : n = 10 * (n / 10) + n % 10 := by omega
      conv_rhs => rw [hn]
      ring

/-- The decimal numeral of `x` denotes `x`. -/
theorem toDigits_value (x : Nat) : digitsValue (Nat.toDigits 10 x) = x := by
  have := toDigitsCore_value (x + 1) x [] (by omega)
  simpa [Nat.toDigits, digitsValue] using this

/-! ### `truncateToInt32SlowPath`: values that truncate to zero -/

theorem truncClosed_range (bits : Nat) :
    -2147483648 ≤ truncClosed bits ∧ truncClosed bits < 2147483648 := by
  unfold truncClosed
  simp only []
  split_ifs <;> first | exact toInt32_range _ | constructor <;> norm_num

theorem truncClosed_zero_of_exp (bits : Nat)
    (h : biasedExp bits = 0 ∨ biasedExp bits ≤ 1022 ∨ 1107 ≤ biasedExp bits) :
    truncClosed bits = 0 := by
  unfold truncClosed
  simp only []
  split_ifs <;> omega

/-- C8: `truncateToInt32SlowPath` returns 0 for every NaN (exponent field 2047, non-zero
fraction, either sign), for `+Infinity` and `-Infinity`, for `+0` and `-0`, for every
subnormal (exponent field 0) and for every finite double of magnitude below 1 (exponent
field at most 1022). -/
theorem truncate_zero_cases :
    (∀ bits, bits < 2 ^ 64 → isnan bits = true → truncateToInt32SlowPath bits = 0) ∧
    truncateToInt32SlowPath infinity = 0 ∧
    truncateToInt32SlowPath negInfinity = 0 ∧
    truncateToInt32SlowPath 0 = 0 ∧
    truncateToInt32SlowPath 0x8000000000000000 = 0 ∧
    (∀ bits, bits < 2 ^ 64 → biasedExp bits = 0 → truncateToInt32SlowPath bits = 0) ∧
    (∀ bits, bits < 2 ^ 64 → biasedExp bits ≤ 1022 → truncateToInt32SlowPath bits = 0) := by
  refine ⟨?_, by decide, by decide, by decide, by decide, ?_, ?_⟩
  · intro bits hb hn
    rw [truncate_eq_closed bits hb]
    apply truncClosed_zero_of_exp
    simp only [isnan, Bool.and_eq_true, beq_iff_eq] at hn
    omega
  · intro bits hb h
    rw [truncate_eq_closed bits hb]
    exact truncClosed_zero_of_exp bits (Or.inl h)
  · intro bits hb h
    rw [truncate_eq_closed bits hb]
    exact truncClosed_zero_of_exp bits (Or.inr (Or.inl h))

theorem truncate_zero_cases_witness :
    truncateToInt32SlowPath 0x7FF8000000000001 = 0 ∧
    truncateToInt32SlowPath 0xBFEFFFFFFFFFFFFF = 0 :=
  ⟨truncate_zero_cases.1 0x7FF8000000000001 (by decide) (by decide),
    truncate_zero_cases.2.2.2.2.2.2 0xBFEFFFFFFFFFFFFF (by decide) (by decide)⟩

/-! ### `truncateToInt32SlowPath`: sign symmetry -/

theorem toInt32_neg (x : Int) :
    toInt32 (-x) = if toInt32 x = -2147483648 then -2147483648 else -toInt32 x := by
  have h1 := toInt32_range x
  have h2 := toInt32_range (-x)
  have e1 := toInt32_emod x
  have e2 := toInt32_emod (-x)
  generalize toInt32 x = a at *
  generalize toInt32 (-x) = b at *
  split_ifs with h <;> omega

theorem negDouble_fields (bits : Nat) (h : bits < 2 ^ 64) :
    negDouble bits < 2 ^ 64 ∧ biasedExp (negDouble bits) = biasedExp bits ∧
    fraction (negDouble bits) = fraction bits ∧ signBit (negDouble bits) = 1 - signBit bits := by
  unfold negDouble biasedExp fraction signBit
  norm_num at h ⊢
  split_ifs with hs <;> omega


theorem toInt32_zero : toInt32 0 = 0 := by decide

theorem truncClosed_eq_magnitude (bits : Nat) :
    truncClosed bits = toInt32 (signFactor bits * (truncMagnitude bits : Int)) := by
  unfold truncClosed truncMagnitude signFactor
  simp only []
  split_ifs <;> simp [toInt32_zero]

theorem signFactor_cases (bits : Nat) : signFactor bits = 1 ∨ signFactor bits = -1 := by
  unfold signFactor; split_ifs <;> simp

theorem signFactor_negDouble (bits : Nat) (h : bits < 2 ^ 64) :
    signFactor (negDouble bits) = -signFactor bits := by
  have hs : signBit bits = 0 ∨ signBit bits = 1 := by unfold signBit; omega
  unfold signFactor
  rw [(negDouble_fields bits h).2.2.2]
  rcases hs with hs | hs <;> simp [hs]

theorem truncMagnitude_negDouble (bits : Nat) (h : bits < 2 ^ 64) :
    truncMagnitude (negDouble bits) = truncMagnitude bits := by
  obtain ⟨_, he, hf, _⟩ := negDouble_fields bits h
  unfold truncMagnitude
  simp only [he, hf]

theorem truncClosed_neg (bits : Nat) (h : bits < 2 ^ 64) :
    truncClosed (negDouble bits)
      = if truncClosed bits = -2147483648 then -2147483648 else -truncClosed bits := by
  rw [truncClosed_eq_magnitude, truncClosed_eq_magnitude, signFactor_negDouble bits h,
    truncMagnitude_negDouble bits h, neg_mul, toInt32_neg]

/-- C18: toggling the sign bit of any double negates the result of
`truncateToInt32SlowPath` modulo `2^32`: the two results sum to a multiple of `2^32`; the
result for `-d` is exactly the negation of the result for `d` unless that result is `-2^31`,
in which case both results are `-2^31`. -/
theorem truncate_negDouble (bits : Nat) (h : bits < 2 ^ 64) :
    (truncateToInt32SlowPath (negDouble bits) + truncateToInt32SlowPath bits) % 4294967296 = 0 ∧
    (truncateToInt32SlowPath bits ≠ -2147483648 →
      truncateToInt32SlowPath (negDouble bits) = -truncateToInt32SlowPath bits) ∧
    (truncateToInt32SlowPath bits = -2147483648 →
      truncateToInt32SlowPath (negDouble bits) = -2147483648) := by
  rw [truncate_eq_closed bits h, truncate_eq_closed _ (negDouble_fields bits h).1,
    truncClosed_neg bits h]
  refine ⟨?_, ?_, ?_⟩
  · split_ifs with h1 <;> omega
  · intro h1; rw [if_neg h1]
  · intro h1; rw [if_pos h1]

theorem truncate_negDouble_witness :
    truncateToInt32SlowPath (negDouble 0x3FF8000000000000)
      = -truncateToInt32SlowPath 0x3FF8000000000000 :=
  (truncate_negDouble 0x3FF8000000000000 (by decide)).2.1 (by decide)

/-! ### `truncateToInt32SlowPath` on converted `int32_t` values -/

theorem highBit_spec (fuel : Nat) :
    ∀ a : Nat, 1 ≤ a → a < 2 ^ fuel →
      2 ^ highBit fuel a ≤ a ∧ a < 2 ^ (highBit fuel a + 1) ∧ highBit fuel a < fuel := by
  induction fuel with
  | zero => intro a h1 h2; simp at h2; omega
  | succ fuel ih =>
    intro a h1 h2
    unfold highBit
    split_ifs with h
    · refine ⟨by simpa using h1, by simpa using h, by omega⟩
    · have h2' : a / 2 < 2 ^ fuel := by
        rw [Nat.div_lt_iff_lt_mul (by norm_num)]
        rw [pow_succ] at h2; exact h2
      obtain ⟨i1, i2, i3⟩ := ih (a / 2) (by omega) h2'
      refine ⟨?_, ?_, by omega⟩
      · rw [pow_succ]; omega
      · rw [pow_succ]; omega

theorem mkDouble_fields (s e f : Nat) (hs : s < 2) (he : e < 2048) (hf : f < 2 ^ 52) :
    mkDouble s e f < 2 ^ 64 ∧ signBit (mkDouble s e f) = s ∧
    biasedExp (mkDouble s e f) = e ∧ fraction (mkDouble s e f) = f := by
  unfold mkDouble signBit biasedExp fraction
  norm_num at hf ⊢
  refine ⟨by omega, by omega, by omega, by omega⟩


theorem int32ToDouble_fields (i : Int) (h0 : i ≠ 0) (h1 : -2147483648 ≤ i)
    (h2 : i < 2147483648) :
    int32ToDouble i < 2 ^ 64 ∧ signFactor (int32ToDouble i) = (if i < 0 then -1 else 1) ∧
    truncMagnitude (int32ToDouble i) = i.natAbs := by
  have ha1 : 1 ≤ i.natAbs := by omega
  have ha2 : i.natAbs < 2 ^ 32 := by norm_num; omega
  obtain ⟨p1, p2, p3⟩ := highBit_spec 32 i.natAbs ha1 ha2
  have hp31 : highBit 32 i.natAbs ≤ 31 := by
    by_contra hc
    have h32 : highBit 32 i.natAbs = 32 ∨ 32 < highBit 32 i.natAbs := by omega
    have : 2 ^ 32 ≤ 2 ^ highBit 32 i.natAbs := Nat.pow_le_pow_right (by norm_num) (by omega)
    omega
  have hp31' : highBit 32 i.natAbs < 32 := p3
  generalize hp : highBit 32 i.natAbs = p at *
  generalize ha : i.natAbs = a at *
  have hsplit : (2 : Nat) ^ 52 = 2 ^ p * 2 ^ (52 - p) := by
    rw [← pow_add]; congr 1; omega
  have hpos : 0 < 2 ^ (52 - p) := by positivity
  have hf : (a - 2 ^ p) * 2 ^ (52 - p) < 2 ^ 52 := by
    rw [hsplit]
    apply Nat.mul_lt_mul_of_pos_right _ hpos
    rw [pow_succ] at p2; omega
  have hfields := mkDouble_fields (if i < 0 then 1 else 0) (1023 + p)
    ((a - 2 ^ p) * 2 ^ (52 - p)) (by split_ifs <;> norm_num) (by omega) hf
  have hdef : int32ToDouble i
      = mkDouble (if i < 0 then 1 else 0) (1023 + p) ((a - 2 ^ p) * 2 ^ (52 - p)) := by
    unfold int32ToDouble
    rw [if_neg h0]
    simp only [ha, hp]
  rw [hdef]
  obtain ⟨f1, f2, f3, f4⟩ := hfields
  refine ⟨f1, ?_, ?_⟩
  · unfold signFactor
    rw [f2]
    split_ifs <;> simp_all
  · unfold truncMagnitude
    simp only [f3, f4]
    rw [if_neg (by omega), if_neg (by omega), if_pos (by omega)]
    have he : 1075 - (1023 + p) = 52 - p := by omega
    rw [he]
    have : 2 ^ 52 + (a - 2 ^ p) * 2 ^ (52 - p) = a * 2 ^ (52 - p) := by
      rw [hsplit, ← Nat.add_mul]
      congr 1; omega
    rw [this, Nat.mul_div_cancel _ hpos]

theorem truncate_int32ToDouble (i : Int) (h1 : -2147483648 ≤ i) (h2 : i < 2147483648) :
    truncateToInt32SlowPath (int32ToDouble i) = i := by
  by_cases h0 : i = 0
  · subst h0; decide
  · obtain ⟨f1, f2, f3⟩ := int32ToDouble_fields i h0 h1 h2
    rw [truncate_eq_closed _ f1, truncClosed_eq_magnitude, f2, f3]
    have : (if i < 0 then (-1 : Int) else 1) * (i.natAbs : Int) = i := by
      split_ifs <;> omega
    rw [this]
    exact toInt32_of_range h1 h2

theorem truncate_range (bits : Nat) (h : bits < 2 ^ 64) :
    -2147483648 ≤ truncateToInt32SlowPath bits ∧ truncateToInt32SlowPath bits < 2147483648 := by
  rw [truncate_eq_closed bits h]
  exact truncClosed_range bits

/-- C7: for every signed 32-bit integer `i`, `truncateToInt32SlowPath` applied to the double
that exactly represents `i` returns `i`; hence, for every double `d`, truncating the double
converted from `truncateToInt32SlowPath(d)` gives `truncateToInt32SlowPath(d)` again. -/
theorem truncate_idempotent_through_int32 :
    (∀ i : Int, -2147483648 ≤ i → i < 2147483648 →
      truncateToInt32SlowPath (int32ToDouble i) = i) ∧
    (∀ bits : Nat, bits < 2 ^ 64 →
      truncateToInt32SlowPath (int32ToDouble (truncateToInt32SlowPath bits))
        = truncateToInt32SlowPath bits) :=
  ⟨truncate_int32ToDouble, fun bits h =>
    truncate_int32ToDouble _ (truncate_range bits h).1 (truncate_range bits h).2⟩

theorem truncate_idempotent_through_int32_witness :
    truncateToInt32SlowPath (int32ToDouble (-2147483648)) = -2147483648 ∧
    truncateToInt32SlowPath (int32ToDouble (truncateToInt32SlowPath 0x41E0000000000000))
      = truncateToInt32SlowPath 0x41E0000000000000 :=
  ⟨truncate_idempotent_through_int32.1 (-2147483648) (by decide) (by decide),
    truncate_idempotent_through_int32.2 0x41E0000000000000 (by decide)⟩

/-! ### `truncateToInt32SlowPath`: multiples of `2^32` -/

/-- C13: for every finite double whose value rounded toward zero is an integer multiple of
`2^32`, `truncateToInt32SlowPath` returns 0; this covers `4294967296.0` and every finite double
with exponent field at least 1107 (magnitude at least `2^84`, aligned exponent above 31), whose
truncated value is such a multiple. -/
theorem truncate_multiple_of_two_pow_32 :
    (∀ bits : Nat, bits < 2 ^ 64 → biasedExp bits ≤ 2046 →
      truncSpec bits % 4294967296 = 0 → truncateToInt32SlowPath bits = 0) ∧
    truncateToInt32SlowPath 0x41F0000000000000 = 0 ∧
    (∀ bits : Nat, bits < 2 ^ 64 → 1107 ≤ biasedExp bits → biasedExp bits ≤ 2046 →
      truncSpec bits % 4294967296 = 0 ∧ truncateToInt32SlowPath bits = 0) := by
  refine ⟨?_, by decide, ?_⟩
  · intro bits hb hfin hmul
    have hmod := truncClosed_emod bits hfin
    have hr := truncClosed_range bits
    rw [truncate_eq_closed bits hb]
    omega
  · intro bits hb he hfin
    have hmod := truncClosed_emod bits hfin
    have hz := truncClosed_zero_of_exp bits (Or.inr (Or.inr he))
    rw [truncate_eq_closed bits hb]
    rw [hz] at hmod
    exact ⟨by omega, hz⟩

theorem truncate_multiple_of_two_pow_32_witness :
    truncSpec 0x4520000000000000 % 4294967296 = 0 ∧
    truncateToInt32SlowPath 0x4530000000000001 = 0 :=
  ⟨by
    have h := truncClosed_emod 0x4520000000000000 (by decide)
    have h2 : truncClosed 0x4520000000000000 = 0 := by
      rw [← truncate_eq_closed _ (by decide)]; decide
    rw [h2] at h; omega,
   (truncate_multiple_of_two_pow_32.2.2 0x4530000000000001 (by decide) (by decide)
    (by decide)).2⟩

/-! ### `truncateToInt32SlowPath` and the value of the double -/

theorem roundTowardZero_signed (k : Nat) (mag : ℚ) (hmag : 0 ≤ mag) :
    roundTowardZero ((-1) ^ k * mag) = (-1) ^ k * ⌊mag⌋ := by
  unfold roundTowardZero
  rcases Nat.even_or_odd k with hk | hk
  · rw [hk.neg_one_pow, hk.neg_one_pow, one_mul, one_mul, if_pos hmag]
  · rw [hk.neg_one_pow, hk.neg_one_pow, neg_one_mul, neg_one_mul]
    by_cases h0 : 0 ≤ -mag
    · have : mag = 0 := by linarith
      rw [if_pos h0, this]; simp
    · rw [if_neg h0, Int.ceil_neg]

theorem small_magnitude_floor (f n : Nat) (hf : f < 2 ^ 52) (hn : 52 ≤ n) :
    ⌊(f : ℚ) * (2 : ℚ) ^ (-(n : Int))⌋ = 0 := by
  rw [Int.floor_eq_zero_iff]
  have hpos : (0 : ℚ) < (2 : ℚ) ^ n := pow_pos (by norm_num) n
  rw [zpow_neg, zpow_natCast, ← div_eq_mul_inv]
  constructor
  · exact div_nonneg (Nat.cast_nonneg f) hpos.le
  · rw [div_lt_one hpos]
    have h1 : (f : ℚ) < (2 : ℚ) ^ (52 : Nat) := by exact_mod_cast hf
    have h2 : (2 : ℚ) ^ (52 : Nat) ≤ (2 : ℚ) ^ n :=
      pow_le_pow_right₀ (by norm_num) hn
    linarith

theorem subnormal_magnitude_floor (f : Nat) (hf : f < 2 ^ 52) :
    ⌊(f : ℚ) * (2 : ℚ) ^ (-1074 : Int)⌋ = 0 :=
  small_magnitude_floor f 1074 hf (by norm_num)

/-- The spec's truncated value is the rational value of the double rounded toward zero. -/
theorem truncSpec_eq_roundTowardZero (bits : Nat) :
    truncSpec bits = roundTowardZero (doubleValue bits) := by
  unfold truncSpec doubleValue
  by_cases h0 : biasedExp bits = 0
  · rw [if_pos h0, if_pos h0, roundTowardZero_signed _ _ (by positivity),
      subnormal_magnitude_floor _ (fraction_lt bits)]
    simp
  · rw [if_neg h0, if_neg h0, roundTowardZero_signed _ _ (by positivity)]


theorem truncate_eq_truncSpec_of_range (bits : Nat) (hb : bits < 2 ^ 64)
    (hfin : biasedExp bits ≤ 2046) (h1 : -2147483648 ≤ truncSpec bits)
    (h2 : truncSpec bits < 2147483648) :
    truncateToInt32SlowPath bits = truncSpec bits := by
  have hmod := truncClosed_emod bits hfin
  have hr := truncClosed_range bits
  rw [truncate_eq_closed bits hb]
  omega

theorem doubleValue_minus_three_halves : doubleValue 0xBFF8000000000000 = -3 / 2 := by
  have h1 : signBit 0xBFF8000000000000 = 1 := by decide
  have h2 : biasedExp 0xBFF8000000000000 = 1023 := by decide
  have h3 : fraction 0xBFF8000000000000 = 2 ^ 51 := by decide
  unfold doubleValue
  rw [h1, h2, h3, if_neg (by norm_num)]
  have h4 : ((1023 : Nat) : Int) - 1075 = -((52 : Nat) : Int) := by norm_num
  rw [h4, zpow_neg, zpow_natCast]
  norm_num

/-- C11: for every finite double `d` with `|d| < 2^31`, `truncateToInt32SlowPath(d)` is,
with no wraparound, `d` rounded toward zero: `floor(d)` for `d ≥ 0` and `ceil(d)` for `d < 0`
(`roundTowardZero`).  The double `-1.5` gives `-1`. -/
theorem truncate_rounds_toward_zero :
    (∀ bits : Nat, bits < 2 ^ 64 → biasedExp bits ≤ 2046 →
      |doubleValue bits| < 2 ^ 31 →
      truncateToInt32SlowPath bits = roundTowardZero (doubleValue bits)) ∧
    doubleValue 0xBFF8000000000000 = -3 / 2 ∧
    truncateToInt32SlowPath 0xBFF8000000000000 = -1 := by
  refine ⟨?_, doubleValue_minus_three_halves, by decide⟩
  intro bits hb hfin habs
  have hv := truncSpec_eq_roundTowardZero bits
  rw [← hv]
  rw [abs_lt] at habs
  apply truncate_eq_truncSpec_of_range bits hb hfin
  · rw [hv]; unfold roundTowardZero
    split_ifs with h0
    · have : (0 : Int) ≤ ⌊doubleValue bits⌋ := Int.floor_nonneg.mpr h0
      omega
    · have : (-2147483648 : Int) < ⌈doubleValue bits⌉ := by
        rw [Int.lt_ceil]; push_cast; norm_num at habs ⊢; exact habs.1
      omega
  · rw [hv]; unfold roundTowardZero
    split_ifs with h0
    · rw [Int.floor_lt]; push_cast; norm_num at habs ⊢; exact habs.2
    · have : ⌈doubleValue bits⌉ ≤ 0 := by
        rw [Int.ceil_le]; push_cast; linarith
      omega

theorem truncate_rounds_toward_zero_witness :
    truncateToInt32SlowPath 0xBFF8000000000000 = roundTowardZero (doubleValue 0xBFF8000000000000) :=
  truncate_rounds_toward_zero.1 0xBFF8000000000000 (by decide) (by decide)
    (by rw [doubleValue_minus_three_halves]; norm_num [abs_lt])

theorem doubleValue_two_pow_31 : doubleValue 0x41E0000000000000 = 2147483648 := by
  have h1 : signBit 0x41E0000000000000 = 0 := by decide
  have h2 : biasedExp 0x41E0000000000000 = 1054 := by decide
  have h3 : fraction 0x41E0000000000000 = 0 := by decide
  unfold doubleValue
  rw [h1, h2, h3, if_neg (by norm_num)]
  have h4 : ((1054 : Nat) : Int) - 1075 = -((21 : Nat) : Int) := by norm_num
  rw [h4, zpow_neg, zpow_natCast]
  norm_num

/-- C12: for every double `d` with `2^31 ≤ d < 2^32`, `truncateToInt32SlowPath(d)` equals
`floor(d) - 2^32`, a negative value (sign-bit wraparound of the 32-bit view).  The double
`2147483648.0` gives `-2147483648`. -/
theorem truncate_wraps_above_two_pow_31 :
    (∀ bits : Nat, bits < 2 ^ 64 → biasedExp bits ≤ 2046 →
      2 ^ 31 ≤ doubleValue bits → doubleValue bits < 2 ^ 32 →
      truncateToInt32SlowPath bits = ⌊doubleValue bits⌋ - 2 ^ 32 ∧
      truncateToInt32SlowPath bits < 0) ∧
    doubleValue 0x41E0000000000000 = 2147483648 ∧
    truncateToInt32SlowPath 0x41E0000000000000 = -2147483648 := by
  refine ⟨?_, doubleValue_two_pow_31, by decide⟩
  intro bits hb hfin hlo hhi
  have hv := truncSpec_eq_roundTowardZero bits
  have h0 : (0 : ℚ) ≤ doubleValue bits := le_trans (by norm_num) hlo
  unfold roundTowardZero at hv
  rw [if_pos h0] at hv
  have hmod := truncClosed_emod bits hfin
  have hr := truncClosed_range bits
  have hf1 : (2147483648 : Int) ≤ ⌊doubleValue bits⌋ := by
    rw [Int.le_floor]; push_cast; norm_num at hlo ⊢; exact hlo
  have hf2 : ⌊doubleValue bits⌋ < (4294967296 : Int) := by
    rw [Int.floor_lt]; push_cast; norm_num at hhi ⊢; exact hhi
  rw [truncate_eq_closed bits hb]
  rw [hv] at hmod
  norm_num
  constructor <;> omega

theorem truncate_wraps_above_two_pow_31_witness :
    truncateToInt32SlowPath 0x41E0000000000000 = ⌊doubleValue 0x41E0000000000000⌋ - 2 ^ 32 :=
  (truncate_wraps_above_two_pow_31.1 0x41E0000000000000 (by decide) (by decide)
    (by rw [doubleValue_two_pow_31]; norm_num) (by rw [doubleValue_two_pow_31]; norm_num)).1

/-! ### `truncateToInt32SlowPath`: the two shifting branches -/

theorem alignedExp_eq (bits : Nat) (h : bits < 2 ^ 64) :
    alignedExp bits = (biasedExp bits : Int) - 1075 := by
  have he := biasedExp_lt bits
  unfold alignedExp
  rw [expField_eq bits h]
  exact toInt32_of_range (by omega) (by omega)

theorem signOf_eq (bits : Nat) (h : bits < 2 ^ 64) : signOf bits = signFactor bits := by
  unfold signOf signFactor
  exact signField_eq bits h

theorem truncate_right_branch (bits : Nat) (h : bits < 2 ^ 64)
    (h1 : -53 < alignedExp bits) (h2 : alignedExp bits < 0) :
    truncateToInt32SlowPath bits = toInt32 (toInt64 (rightShiftProduct bits)) := by
  have he := alignedExp_eq bits h
  have hx : ¬ (andInt (toInt32 ((bits >>> 52 : Nat) : Int)) 0x7FF = 0) := by
    rw [expField_eq bits h]; omega
  have ha : toInt32 (andInt (toInt32 ((bits >>> 52 : Nat) : Int)) 0x7FF - (1023 + 52))
      = alignedExp bits := rfl
  unfold truncateToInt32SlowPath
  simp only []
  rw [if_neg hx, ha, if_neg (by omega), if_pos (by omega)]
  rfl


theorem rightShifted_eq (bits : Nat) (h : bits < 2 ^ 64)
    (h1 : -53 < alignedExp bits) (h2 : alignedExp bits < 0) :
    rightShifted bits = (2 ^ 52 + fraction bits) / 2 ^ (1075 - biasedExp bits) := by
  have he := alignedExp_eq bits h
  have hk : (toInt32 (-(alignedExp bits))).toNat = 1075 - biasedExp bits := by
    rw [toInt32_of_range (by omega) (by omega)]; omega
  unfold rightShifted significand
  rw [hk, significand_eq, Nat.shiftRight_eq_div_pow]

theorem rightShifted_lt (bits : Nat) (h : bits < 2 ^ 64)
    (h1 : -53 < alignedExp bits) (h2 : alignedExp bits < 0) :
    rightShifted bits < 2 ^ 52 := by
  have he := alignedExp_eq bits h
  have hf := fraction_lt bits
  rw [rightShifted_eq bits h h1 h2, Nat.div_lt_iff_lt_mul (by positivity)]
  have h2le : 2 ^ 1 ≤ 2 ^ (1075 - biasedExp bits) :=
    Nat.pow_le_pow_right (by norm_num) (by omega)
  calc 2 ^ 52 + fraction bits < 2 ^ 52 * 2 ^ 1 := by omega
    _ ≤ 2 ^ 52 * 2 ^ (1075 - biasedExp bits) := Nat.mul_le_mul_left _ h2le

/-- C14: for every double that takes the right-shift branch (aligned exponent
`-53 < exp < 0`), the shift count `-exp` lies in `1..52`, the shifted significand is below
`2^52`, and the product `sign * (m >> -exp)` lies within the range of `int64_t`, so it is
computed without overflow before being narrowed to the 32 bits returned; for `-2147483648.0`
the product is `-1 * 2147483648`. -/
theorem right_shift_branch_no_overflow :
    (∀ bits : Nat, bits < 2 ^ 64 → -53 < alignedExp bits → alignedExp bits < 0 →
      1 ≤ toInt32 (-(alignedExp bits)) ∧ toInt32 (-(alignedExp bits)) ≤ 52 ∧
      rightShifted bits < 2 ^ 52 ∧
      -2 ^ 63 ≤ rightShiftProduct bits ∧ rightShiftProduct bits < 2 ^ 63 ∧
      toInt64 (rightShiftProduct bits) = rightShiftProduct bits ∧
      truncateToInt32SlowPath bits = toInt32 (rightShiftProduct bits)) ∧
    signOf 0xC1E0000000000000 = -1 ∧ rightShifted 0xC1E0000000000000 = 2147483648 ∧
    rightShiftProduct 0xC1E0000000000000 = -2147483648 ∧
    truncateToInt32SlowPath 0xC1E0000000000000 = -2147483648 := by
  refine ⟨?_, by decide, by decide, by decide, by decide⟩
  intro bits h h1 h2
  have hlt := rightShifted_lt bits h h1 h2
  have hs := signFactor_cases bits
  have hprod : rightShiftProduct bits = signFactor bits * (rightShifted bits : Int) := by
    unfold rightShiftProduct
    rw [signOf_eq bits h, toInt64_of_range (by omega) (by norm_num at hlt; omega)]
  have hr : -9223372036854775808 ≤ rightShiftProduct bits ∧
      rightShiftProduct bits < 9223372036854775808 := by
    rw [hprod]
    norm_num at hlt
    rcases hs with hs | hs <;> rw [hs] <;> constructor <;> omega
  have hk : toInt32 (-(alignedExp bits)) = -(alignedExp bits) :=
    toInt32_of_range (by omega) (by omega)
  have h64 : toInt64 (rightShiftProduct bits) = rightShiftProduct bits :=
    toInt64_of_range hr.1 hr.2
  refine ⟨by omega, by omega, hlt, by norm_num; exact hr.1, by norm_num; exact hr.2, h64, ?_⟩
  rw [truncate_right_branch bits h h1 h2, h64]

theorem right_shift_branch_no_overflow_witness :
    rightShifted 0xBFF8000000000000 < 2 ^ 52 ∧
    truncateToInt32SlowPath 0xBFF8000000000000 = toInt32 (rightShiftProduct 0xBFF8000000000000) :=
  ⟨(right_shift_branch_no_overflow.1 0xBFF8000000000000 (by decide) (by decide)
      (by decide)).2.2.1,
   (right_shift_branch_no_overflow.1 0xBFF8000000000000 (by decide) (by decide)
      (by decide)).2.2.2.2.2.2⟩

theorem truncate_left_branch (bits : Nat) (h : bits < 2 ^ 64)
    (h1 : 0 ≤ alignedExp bits) (h2 : alignedExp bits ≤ 31) :
    truncateToInt32SlowPath bits = toInt32 (toInt32 (leftShiftProduct bits)) := by
  have he := alignedExp_eq bits h
  have hx : ¬ (andInt (toInt32 ((bits >>> 52 : Nat) : Int)) 0x7FF = 0) := by
    rw [expField_eq bits h]; omega
  have ha : toInt32 (andInt (toInt32 ((bits >>> 52 : Nat) : Int)) 0x7FF - (1023 + 52))
      = alignedExp bits := rfl
  unfold truncateToInt32SlowPath
  simp only []
  rw [if_neg hx, ha, if_pos (by omega), if_pos h2]
  rfl

/-- C15 (the code at the failing input): on the left-shift branch (aligned exponent
`0 ≤ exp ≤ 31`) the shift count is below 64 and the product `sign * (int32_t)(m << exp)` is
either representable in a 32-bit signed `int` or equal to `2147483648`; the latter case occurs:
for `-(2^52 + 1) * 2^31` the aligned exponent is 31, `sign` is `-1`, `(int32_t)(m << exp)` is
`-2147483648`, and the product `2147483648` exceeds the largest `int`. -/
theorem left_shift_product_overflows :
    (∀ bits : Nat, bits < 2 ^ 64 → 0 ≤ alignedExp bits → alignedExp bits ≤ 31 →
      (alignedExp bits).toNat < 64 ∧
      (leftShiftProduct bits = 2147483648 ∨
        (-2147483648 ≤ leftShiftProduct bits ∧ leftShiftProduct bits ≤ 2147483647))) ∧
    alignedExp 0xC520000000000001 = 31 ∧ signOf 0xC520000000000001 = -1 ∧
    toInt32 ((toUInt64 ((significand 0xC520000000000001 <<< 31 : Nat) : Int) : Nat) : Int)
      = -2147483648 ∧
    leftShiftProduct 0xC520000000000001 = 2147483648 ∧
    ¬ (leftShiftProduct 0xC520000000000001 ≤ 2147483647) := by
  refine ⟨?_, by decide, by decide, by decide, by decide, by decide⟩
  intro bits h h1 h2
  refine ⟨by omega, ?_⟩
  unfold leftShiftProduct
  rw [signOf_eq bits h]
  have hr := toInt32_range
    ((toUInt64 ((significand bits <<< (alignedExp bits).toNat : Nat) : Int) : Nat) : Int)
  generalize toInt32
    ((toUInt64 ((significand bits <<< (alignedExp bits).toNat : Nat) : Int) : Nat) : Int) = y at hr
  rcases signFactor_cases bits with hs | hs <;> rw [hs] <;> omega

theorem left_shift_product_overflows_witness :
    (alignedExp 0x4330000000000003).toNat < 64 ∧
    (leftShiftProduct 0x4330000000000003 = 2147483648 ∨
      (-2147483648 ≤ leftShiftProduct 0x4330000000000003 ∧
        leftShiftProduct 0x4330000000000003 ≤ 2147483647)) :=
  left_shift_product_overflows.1 0x4330000000000003 (by decide) (by decide) (by decide)

/-! ### `numberToString`: lengths -/

theorem numberToString_special (g_dtoa : Nat → DtoaResult) (m : Nat) (h : isSpecial m = true) :
    numberToString g_dtoa m = ⟨['N', 'a', 'N', NUL], 3, []⟩ ∨
    numberToString g_dtoa m = ⟨['0', NUL], 1, []⟩ ∨
    numberToString g_dtoa m = ⟨['I', 'n', 'f', 'i', 'n', 'i', 't', 'y', NUL], 8, []⟩ ∨
    numberToString g_dtoa m = ⟨['-', 'I', 'n', 'f', 'i', 'n', 'i', 't', 'y', NUL], 9, []⟩ := by
  unfold numberToString
  by_cases h1 : isnan m = true
  · left; simp [h1, strcpy]
  · by_cases h2 : isZero m = true
    · right; left; simp [h1, h2, strcpy]
    · by_cases h3 : m = infinity
      · right; right; left
        have i1 : isnan infinity = false := by decide
        have i2 : isZero infinity = false := by decide
        simp [h3, i1, i2, strcpy]
      · by_cases h4 : m = negInfinity
        · right; right; right
          have i1 : isnan negInfinity = false := by decide
          have i2 : isZero negInfinity = false := by decide
          have i3 : negInfinity ≠ infinity := by decide
          simp [h4, i1, i2, i3, strcpy]
        · exfalso
          simp only [isSpecial, Bool.or_eq_true, beq_iff_eq] at h
          tauto

theorem formatSpec_length_le (s : List Char) (n : Int) (hk1 : 1 ≤ s.length)
    (hk2 : s.length ≤ 17) (hn1 : -323 ≤ n) (hn2 : n ≤ 309) :
    (formatSpec s n).length ≤ 24 := by
  have hd := toDigits_length_le_three (n - 1).natAbs (by omega)
  unfold formatSpec
  simp only []
  split_ifs <;>
    simp only [List.length_append, List.length_replicate, List.length_take, List.length_drop,
      List.length_cons, List.length_nil] <;>
    omega

theorem signPrefix_length_le (b : Bool) : (signPrefix b).length ≤ 1 := by
  cases b <;> simp [signPrefix]

theorem numberToString_length_le (g_dtoa : Nat → DtoaResult) (m : Nat)
    (h : isSpecial m = false →
      1 ≤ (g_dtoa m).s.length ∧ (g_dtoa m).s.length ≤ 17 ∧
      -323 ≤ (g_dtoa m).n ∧ (g_dtoa m).n ≤ 309) :
    (numberToString g_dtoa m).dest.length ≤ 26 ∧ (numberToString g_dtoa m).ret ≤ 25 := by
  cases hs : isSpecial m
  · obtain ⟨h1, h2, h3, h4⟩ := h hs
    have hl := formatSpec_length_le _ _ h1 h2 h3 h4
    have hp := signPrefix_length_le (g_dtoa m).sign
    rw [numberToString_general g_dtoa m hs,
      formatDigits_eq_formatSpec _ _ h1 (by omega) (by omega) (by omega)]
    simp only [List.length_append, List.length_cons, List.length_nil]
    omega
  · rcases numberToString_special g_dtoa m hs with e | e | e | e <;> rw [e] <;>
      simp


/-- C5: for every input of `numberToString` (a special value, or a generator output with
`1 ≤ k ≤ 17` digits and `-323 ≤ n ≤ 309`), the number of characters written, terminator
included, is strictly below `NUMBER_TO_STRING_BUF_SIZE`, so the assertion before the return
holds; the returned length is at most 25 (26 characters with the terminator). -/
theorem numberToString_fits_buffer (g_dtoa : Nat → DtoaResult) (m : Nat)
    (h : isSpecial m = false →
      1 ≤ (g_dtoa m).s.length ∧ (g_dtoa m).s.length ≤ 17 ∧
      -323 ≤ (g_dtoa m).n ∧ (g_dtoa m).n ≤ 309) :
    (numberToString g_dtoa m).dest.length < NUMBER_TO_STRING_BUF_SIZE ∧
    (numberToString g_dtoa m).ret ≤ 25 ∧
    (numberToString g_dtoa m).dest.length ≤ 26 := by
  have hl := numberToString_length_le g_dtoa m h
  refine ⟨?_, hl.2, hl.1⟩
  unfold NUMBER_TO_STRING_BUF_SIZE
  omega

theorem numberToString_fits_buffer_witness :
    (numberToString (constDtoa ⟨0, ['1', '5'], -6, true⟩) 0xBE8421F5F40D8376).dest.length
      < NUMBER_TO_STRING_BUF_SIZE :=
  (numberToString_fits_buffer (constDtoa ⟨0, ['1', '5'], -6, true⟩) 0xBE8421F5F40D8376
    (fun _ => by decide)).1

/-- C6 as stated fails: for `-1.2345678901234567e-6` (17 digits, `n = -5`, sign set) the
characters written, terminator included, number 26, which is more than 25. -/
theorem worst_case_exceeds_spec_sum :
    ¬ (∀ (g_dtoa : Nat → DtoaResult) (m : Nat),
      (isSpecial m = false →
        1 ≤ (g_dtoa m).s.length ∧ (g_dtoa m).s.length ≤ 17 ∧
        -323 ≤ (g_dtoa m).n ∧ (g_dtoa m).n ≤ 309) →
      (numberToString g_dtoa m).dest.length ≤ 1 + 17 + 1 + 1 + 1 + 3 + 1) := by
  intro hall
  have h := hall (constDtoa ⟨0, ['1', '2', '3', '4', '5', '6', '7', '8', '9', '0', '1', '2', '3',
    '4', '5', '6', '7'], -5, true⟩) 0xBEB4B66DC01EC6FB (fun _ => by decide)
  revert h
  decide

theorem formatSpec_exponential_length_le (s : List Char) (n : Int) (hk1 : 1 ≤ s.length)
    (hk2 : s.length ≤ 17) (hn1 : -323 ≤ n) (hn2 : n ≤ 309) (hexp : n ≤ -6 ∨ 22 ≤ n) :
    (formatSpec s n).length ≤ 23 := by
  have hd := toDigits_length_le_three (n - 1).natAbs (by omega)
  unfold formatSpec
  simp only []
  split_ifs <;>
    simp only [List.length_append, List.length_replicate, List.length_take, List.length_drop,
      List.length_cons, List.length_nil] <;>
    omega

/-- C6 (amended): for every generator output with `1 ≤ k ≤ 17` digits and `-323 ≤ n ≤ 309`
(and for the special values) the characters written, terminator included, number at most
`26 = 1 (sign) + 2 ('0.') + 5 (zeros) + 17 (digits) + 1 (terminator)`; in exponential form
(`n ≤ -6` or `n ≥ 22`) they number at most the spec's sum
`1 + 17 + 1 + 1 + 1 + 3 + 1 = 25`. -/
theorem numberToString_worst_case_length (g_dtoa : Nat → DtoaResult) (m : Nat)
    (h : isSpecial m = false →
      1 ≤ (g_dtoa m).s.length ∧ (g_dtoa m).s.length ≤ 17 ∧
      -323 ≤ (g_dtoa m).n ∧ (g_dtoa m).n ≤ 309) :
    (numberToString g_dtoa m).dest.length ≤ 1 + 2 + 5 + 17 + 1 ∧
    (isSpecial m = false → ((g_dtoa m).n ≤ -6 ∨ 22 ≤ (g_dtoa m).n) →
      (numberToString g_dtoa m).dest.length ≤ 1 + 17 + 1 + 1 + 1 + 3 + 1) := by
  refine ⟨(numberToString_length_le g_dtoa m h).1, ?_⟩
  intro hs hexp
  obtain ⟨h1, h2, h3, h4⟩ := h hs
  have hl := formatSpec_exponential_length_le _ _ h1 h2 h3 h4 hexp
  have hp := signPrefix_length_le (g_dtoa m).sign
  rw [numberToString_general g_dtoa m hs,
    formatDigits_eq_formatSpec _ _ h1 (by omega) (by omega) (by omega)]
  simp only [List.length_append, List.length_cons, List.length_nil]
  omega

theorem numberToString_worst_case_length_witness :
    (numberToString (constDtoa ⟨0, ['1', '2', '3', '4', '5', '6', '7', '8', '9', '0', '1', '2',
      '3', '4', '5', '6', '7'], -5, true⟩) 0xBEB4B66DC01EC6FB).dest.length ≤ 1 + 2 + 5 + 17 + 1 :=
  (numberToString_worst_case_length (constDtoa ⟨0, ['1', '2', '3', '4', '5', '6', '7', '8',
    '9', '0', '1', '2', '3', '4', '5', '6', '7'], -5, true⟩) 0xBEB4B66DC01EC6FB
    (fun _ => by decide)).1

/-! ### `numberToString`: returned length, terminator and generator calls -/

theorem isDigit_ne_NUL (c : Char) (h : c.isDigit = true) : c ≠ NUL := by
  intro hc
  subst hc
  revert h
  decide

theorem formatSpec_no_NUL (s : List Char) (n : Int) (hs : ∀ c ∈ s, c.isDigit = true) :
    ∀ c ∈ formatSpec s n, c ≠ NUL := by
  have hd : ∀ c ∈ Nat.toDigits 10 (n - 1).natAbs, c ≠ NUL :=
    fun c hc => isDigit_ne_NUL c (toDigits_all_isDigit _ c hc)
  have hs' : ∀ c ∈ s, c ≠ NUL := fun c hc => isDigit_ne_NUL c (hs c hc)
  intro c hc
  unfold formatSpec at hc
  simp only [] at hc
  split_ifs at hc <;>
    simp only [List.mem_append, List.mem_cons, List.mem_replicate, List.mem_singleton,
      List.not_mem_nil, or_false] at hc <;>
    (casesm* _ ∨ _, _ ∧ _) <;>
    first
      | exact hs' c ‹_›
      | exact hd c ‹_›
      | exact hs' c (List.mem_of_mem_take ‹_›)
      | exact hs' c (List.mem_of_mem_drop ‹_›)
      | (subst_vars; decide)


theorem terminated_string (body : List Char) (hb : ∀ c ∈ body, c ≠ NUL) :
    (body ++ [NUL])[body.length]? = some NUL ∧
    ∀ i, i < body.length → (body ++ [NUL])[i]? ≠ some NUL := by
  constructor
  · simp
  · intro i hi
    rw [List.getElem?_append_left hi, List.getElem?_eq_getElem hi]
    intro he
    exact hb _ (List.getElem_mem hi) (Option.some.inj he)

theorem bufferAfter_frame (buf written : List Char) (i : Nat) (hi : written.length ≤ i) :
    (bufferAfter buf written)[i]? = buf[i]? := by
  unfold bufferAfter
  rw [List.getElem?_append_right hi, List.getElem?_drop]
  congr 1
  omega

/-- C9: on every path of `numberToString` the value returned is the number of characters
written before the terminator: `dest[ret]` is NUL, none of `dest[0..ret-1]` is NUL (the
generator's digits being `'0'..'9'`), exactly `ret + 1` characters are written, and every
cell of the destination buffer at an index greater than `ret` keeps its content. -/
theorem numberToString_returns_strlen (g_dtoa : Nat → DtoaResult) (m : Nat)
    (h : isSpecial m = false →
      1 ≤ (g_dtoa m).s.length ∧ (g_dtoa m).s.length < 2147483648 ∧
      -2147483647 < (g_dtoa m).n ∧ (g_dtoa m).n < 2147483648 ∧
      ∀ c ∈ (g_dtoa m).s, c.isDigit = true) :
    (numberToString g_dtoa m).dest.length = (numberToString g_dtoa m).ret + 1 ∧
    (numberToString g_dtoa m).dest[(numberToString g_dtoa m).ret]? = some NUL ∧
    (∀ i, i < (numberToString g_dtoa m).ret → (numberToString g_dtoa m).dest[i]? ≠ some NUL) ∧
    (∀ (buf : List Char) (i : Nat), (numberToString g_dtoa m).ret < i →
      (bufferAfter buf (numberToString g_dtoa m).dest)[i]? = buf[i]?) := by
  have key : ∀ (body : List Char) (calls : List DtoaCall), (∀ c ∈ body, c ≠ NUL) →
      numberToString g_dtoa m = ⟨body ++ [NUL], body.length, calls⟩ →
      (numberToString g_dtoa m).dest.length = (numberToString g_dtoa m).ret + 1 ∧
      (numberToString g_dtoa m).dest[(numberToString g_dtoa m).ret]? = some NUL ∧
      (∀ i, i < (numberToString g_dtoa m).ret →
        (numberToString g_dtoa m).dest[i]? ≠ some NUL) ∧
      (∀ (buf : List Char) (i : Nat), (numberToString g_dtoa m).ret < i →
        (bufferAfter buf (numberToString g_dtoa m).dest)[i]? = buf[i]?) := by
    intro body calls hb he
    rw [he]
    obtain ⟨t1, t2⟩ := terminated_string body hb
    refine ⟨by simp, t1, t2, ?_⟩
    intro buf i hi
    apply bufferAfter_frame
    simp only [List.length_append, List.length_cons, List.length_nil] at hi ⊢
    omega
  cases hs : isSpecial m
  · obtain ⟨h1, h2, h3, h4, h5⟩ := h hs
    apply key (signPrefix (g_dtoa m).sign ++ formatSpec (g_dtoa m).s (g_dtoa m).n)
      [DtoaCall.g_dtoa m (g_dtoa m).ptr, DtoaCall.g_freedtoa (g_dtoa m).ptr]
    · intro c hc
      rcases List.mem_append.mp hc with hc | hc
      · unfold signPrefix at hc
        split_ifs at hc
        · simp only [List.mem_singleton] at hc; subst hc; decide
        · simp at hc
      · exact formatSpec_no_NUL _ _ h5 c hc
    · rw [numberToString_general g_dtoa m hs, formatDigits_eq_formatSpec _ _ h1 h2 h3 h4]
      simp
  · rcases numberToString_special g_dtoa m hs with e | e | e | e
    · exact key ['N', 'a', 'N'] [] (by decide) e
    · exact key ['0'] [] (by decide) e
    · exact key ['I', 'n', 'f', 'i', 'n', 'i', 't', 'y'] [] (by decide) e
    · exact key ['-', 'I', 'n', 'f', 'i', 'n', 'i', 't', 'y'] [] (by decide) e

theorem numberToString_returns_strlen_witness :
    (numberToString (constDtoa ⟨0, ['1', '5'], -6, true⟩) 0xBE8421F5F40D8376).dest.length
      = (numberToString (constDtoa ⟨0, ['1', '5'], -6, true⟩) 0xBE8421F5F40D8376).ret + 1 :=
  (numberToString_returns_strlen (constDtoa ⟨0, ['1', '5'], -6, true⟩) 0xBE8421F5F40D8376
    (fun _ => by decide)).1

/-- C10: in every execution of `numberToString` the generator's output is acquired
(`g_dtoa`) and released (`g_freedtoa`) the same number of times: no call at all on the NaN,
zero and infinity paths, and on the general path, whatever the digits and the index (hence
whichever formatting branch is taken), exactly one `g_dtoa` followed by exactly one
`g_freedtoa` of the buffer it returned. -/
theorem numberToString_acquire_release (g_dtoa : Nat → DtoaResult) (m : Nat) :
    acquireCount (numberToString g_dtoa m).calls = releaseCount (numberToString g_dtoa m).calls ∧
    (isSpecial m = true → (numberToString g_dtoa m).calls = []) ∧
    (isSpecial m = false →
      (numberToString g_dtoa m).calls
        = [DtoaCall.g_dtoa m (g_dtoa m).ptr, DtoaCall.g_freedtoa (g_dtoa m).ptr] ∧
      acquireCount (numberToString g_dtoa m).calls = 1 ∧
      releaseCount (numberToString g_dtoa m).calls = 1) := by
  cases hs : isSpecial m
  · rw [numberToString_general g_dtoa m hs]
    simp [acquireCount, releaseCount]
  · rcases numberToString_special g_dtoa m hs with e | e | e | e <;> rw [e] <;>
      simp [acquireCount, releaseCount]

theorem numberToString_acquire_release_witness :
    (numberToString (constDtoa ⟨7, ['1', '5'], -6, true⟩) 0xBE8421F5F40D8376).calls
      = [DtoaCall.g_dtoa 0xBE8421F5F40D8376 7, DtoaCall.g_freedtoa 7] :=
  ((numberToString_acquire_release (constDtoa ⟨7, ['1', '5'], -6, true⟩)
    0xBE8421F5F40D8376).2.2 (by decide)).1

/-! ### `numberToString`: every read of the digits is in bounds -/

theorem forLoopStores_map (lo hi : Int) (body : Int → Store) (f : Store → Char) :
    (forLoopStores lo hi body).map f = forLoop lo hi (fun i => f (body i)) := by
  unfold forLoopStores forLoop
  rw [List.map_map]
  rfl

theorem formatStores_value (s : List Char) (n : Int) :
    (formatStores s n).map (storeValue s (snprintfInt (absInt (toInt32 (n - 1)))))
      = formatDigits s n := by
  unfold formatStores formatDigits
  simp only []
  split_ifs <;>
    simp only [List.map_append, List.map_cons, List.map_nil, forLoopStores_map, storeValue]

theorem mem_forLoopStores (lo hi : Int) (body : Int → Store) (x : Store)
    (h : x ∈ forLoopStores lo hi body) : ∃ i, lo ≤ i ∧ i < hi ∧ x = body i := by
  unfold forLoopStores at h
  obtain ⟨t, ht, rfl⟩ := List.mem_map.mp h
  rw [List.mem_range] at ht
  exact ⟨lo + t, by omega, by omega, rfl⟩

/-- C16: for every generator output with `k >= 1` digits and any index `n`, every read `s[i]`
performed by `numberToString` has `0 <= i < k` (and every read `nBuf[i]` is within the printed
exponent); in the Step 7 branch (`0 < n <= 21` and not `k <= n`) the split point `n` is
strictly less than `k`. The reads are those of `formatStores`, whose stored values are the
characters `formatDigits` writes (`formatStores_value`). -/
theorem numberToString_reads_in_bounds (s : List Char) (n : Int)
    (hk : 1 ≤ s.length) (hk2 : s.length < 2147483648) :
    (∀ i, Store.readS i ∈ formatStores s n → 0 ≤ i ∧ i < (s.length : Int)) ∧
    (∀ i, Store.readNBuf i ∈ formatStores s n →
      0 ≤ i ∧ i < ((snprintfInt (absInt (toInt32 (n - 1)))).length : Int)) ∧
    (0 < n ∧ n ≤ 21 ∧ ¬ ((s.length : Int) ≤ n) → n < (s.length : Int)) := by
  have hk3 : toInt32 (s.length : Int) = (s.length : Int) :=
    toInt32_of_range (by omega) (by omega)
  refine ⟨?_, ?_, fun h => by omega⟩
  · intro i hi
    unfold formatStores at hi
    simp only [hk3] at hi
    split_ifs at hi <;>
      simp only [List.mem_append, List.mem_cons, List.mem_singleton, List.not_mem_nil,
        or_false, false_or, Store.readS.injEq, reduceCtorEq] at hi <;>
      (try casesm* _ ∨ _) <;>
      first
        | omega
        | (obtain ⟨j, h1, h2, h3⟩ := mem_forLoopStores _ _ _ _ ‹_›
           cases h3 <;> omega)
  · intro i hi
    unfold formatStores at hi
    simp only [hk3] at hi
    split_ifs at hi <;>
      simp only [List.mem_append, List.mem_cons, List.mem_singleton, List.not_mem_nil,
        or_false, false_or, reduceCtorEq] at hi <;>
      (try casesm* _ ∨ _) <;>
      (obtain ⟨j, h1, h2, h3⟩ := mem_forLoopStores _ _ _ _ ‹_›
       cases h3 <;> omega)

theorem numberToString_reads_in_bounds_witness :
    Store.readS 3 ∈ formatStores ['1', '2', '3', '4'] 2 ∧
      ((0 : Int) ≤ 3 ∧ (3 : Int) < ((['1', '2', '3', '4'] : List Char).length : Int)) :=
  ⟨by decide,
    (numberToString_reads_in_bounds ['1', '2', '3', '4'] 2 (by decide) (by decide)).1 3
      (by decide)⟩

/-! ### `numberToString`: the exponential form -/

theorem digitChar_ne_zero (d : Nat) (h0 : 0 < d) (h : d < 10) : Nat.digitChar d ≠ '0' := by
  interval_cases d <;> decide

theorem toDigitsCore_head (fuel : Nat) :
    ∀ (n : Nat) (ds : List Char), 0 < n → n < fuel →
      (Nat.toDigitsCore 10 fuel n ds).head? ≠ some '0' := by
  induction fuel with
  | zero => intro n ds _ h; omega
  | succ fuel ih =>
    intro n ds h0 h
    simp only [Nat.toDigitsCore]
    split_ifs with hz
    · have hn : n % 10 = n := by omega
      rw [hn, List.head?_cons]
      intro he
      exact digitChar_ne_zero n h0 (by omega) (Option.some.inj he)
    · exact ih (n / 10) _ (by omega) (by omega)

/-- The decimal numeral of a positive number has no leading zero. -/
theorem toDigits_head (x : Nat) (h : 0 < x) : (Nat.toDigits 10 x).head? ≠ some '0' :=
  toDigitsCore_head (x + 1) x [] h (by omega)

theorem isDigit_ne_e (c : Char) (h : c.isDigit = true) : c ≠ 'e' := by
  intro hc
  subst hc
  revert h
  decide

/-- The mantissa part of the exponential form: the single digit, or the first digit, a point
and the remaining digits. -/
theorem formatSpec_exponential (s : List Char) (n : Int)
    (hs : ∀ c ∈ s, c.isDigit = true) (he : 'e' ∈ formatSpec s n) :
    (n ≤ -6 ∨ 22 ≤ n) ∧
    formatSpec s n
      = (if (s.length : Int) = 1 then s else s.take 1 ++ ['.'] ++ s.drop 1)
        ++ ['e', if n - 1 < 0 then '-' else '+'] ++ Nat.toDigits 10 (n - 1).natAbs := by
  have hs' : ∀ c ∈ s, c ≠ 'e' := fun c hc => isDigit_ne_e c (hs c hc)
  have e1 : 'e' ∉ s := fun hc => hs' _ hc rfl
  have e2 : ∀ j, 'e' ∉ s.take j := fun j hc => e1 (List.mem_of_mem_take hc)
  have e3 : ∀ j, 'e' ∉ s.drop j := fun j hc => e1 (List.mem_of_mem_drop hc)
  have e4 : ('e' : Char) ≠ '0' := by decide
  have e5 : ('e' : Char) ≠ '.' := by decide
  by_cases hA : (s.length : Int) ≤ n ∧ n ≤ 21
  · exfalso
    simp only [formatSpec, if_pos hA, List.mem_append, List.mem_replicate] at he
    rcases he with he | he
    · exact e1 he
    · exact e4 he.2
  by_cases hB : 0 < n ∧ n ≤ 21
  · exfalso
    simp only [formatSpec, if_neg hA, if_pos hB, List.mem_append, List.mem_singleton] at he
    rcases he with (he | he) | he
    · exact e2 _ he
    · exact e5 he
    · exact e3 _ he
  by_cases hC : -6 < n ∧ n ≤ 0
  · exfalso
    simp only [formatSpec, if_neg hA, if_neg hB, if_pos hC, List.mem_append, List.mem_cons,
      List.mem_replicate, List.not_mem_nil, or_false] at he
    rcases he with ((he | he) | he) | he
    · exact e4 he
    · exact e5 he
    · exact e4 he.2
    · exact e1 he
  refine ⟨by omega, ?_⟩
  simp only [formatSpec, if_neg hA, if_neg hB, if_neg hC]
  split_ifs <;> simp

theorem special_dest_no_e (g_dtoa : Nat → DtoaResult) (m : Nat) (hs : isSpecial m = true) :
    'e' ∉ (numberToString g_dtoa m).dest := by
  rcases numberToString_special g_dtoa m hs with e | e | e | e <;> rw [e] <;> decide

/-- C17: whenever the string `numberToString` writes contains `'e'` (generator digits
`'0'..'9'`, `k >= 1`, `k` and `n` within `int` range), the input is on the general path, the
index satisfies `n <= -6` or `n >= 22`, hence the printed exponent `n - 1` is not `0` and not
in `-6..20`; the output ends in `'e'`, a sign character and the decimal numeral of `|n - 1|`,
the part before that `'e'` contains no `'e'`, the sign character is `'+'` exactly when
`n >= 22` and `'-'` exactly when `n <= -6`, and the exponent numeral has no leading `'0'`. -/
theorem numberToString_exponential_form (g_dtoa : Nat → DtoaResult) (m : Nat)
    (h : isSpecial m = false →
      1 ≤ (g_dtoa m).s.length ∧ (g_dtoa m).s.length < 2147483648 ∧
      -2147483647 < (g_dtoa m).n ∧ (g_dtoa m).n < 2147483648 ∧
      ∀ c ∈ (g_dtoa m).s, c.isDigit = true)
    (he : 'e' ∈ (numberToString g_dtoa m).dest) :
    isSpecial m = false ∧
    ((g_dtoa m).n ≤ -6 ∨ 22 ≤ (g_dtoa m).n) ∧
    (g_dtoa m).n - 1 ≠ 0 ∧ ¬ (-6 ≤ (g_dtoa m).n - 1 ∧ (g_dtoa m).n - 1 ≤ 20) ∧
    ∃ (mant : List Char) (sgn : Char),
      (numberToString g_dtoa m).dest
        = mant ++ ['e', sgn] ++ Nat.toDigits 10 ((g_dtoa m).n - 1).natAbs ++ [NUL] ∧
      'e' ∉ mant ∧
      (sgn = '+' ↔ 22 ≤ (g_dtoa m).n) ∧ (sgn = '-' ↔ (g_dtoa m).n ≤ -6) ∧
      (Nat.toDigits 10 ((g_dtoa m).n - 1).natAbs).head? ≠ some '0' ∧
      (digitsValue (Nat.toDigits 10 ((g_dtoa m).n - 1).natAbs) : Int) = |(g_dtoa m).n - 1| := by
  cases hsp : isSpecial m
  swap
  · exact absurd he (special_dest_no_e g_dtoa m hsp)
  obtain ⟨h1, h2, h3, h4, h5⟩ := h hsp
  rw [numberToString_general g_dtoa m hsp, formatDigits_eq_formatSpec _ _ h1 h2 h3 h4] at he ⊢
  simp only [List.mem_append, List.mem_singleton] at he
  have hne : ('e' : Char) ≠ NUL := by decide
  have hsg : 'e' ∉ signPrefix (g_dtoa m).sign := by
    unfold signPrefix
    split_ifs <;> decide
  have hin : 'e' ∈ formatSpec (g_dtoa m).s (g_dtoa m).n := by
    rcases he with (he | he) | he
    · exact absurd he hsg
    · exact he
    · exact absurd he hne
  obtain ⟨hn, hf⟩ := formatSpec_exponential _ _ h5 hin
  have e1 : 'e' ∉ (g_dtoa m).s := fun hc => isDigit_ne_e _ (h5 _ hc) rfl
  refine ⟨rfl, hn, by omega, by omega,
    signPrefix (g_dtoa m).sign ++
      (if ((g_dtoa m).s.length : Int) = 1 then (g_dtoa m).s
        else (g_dtoa m).s.take 1 ++ ['.'] ++ (g_dtoa m).s.drop 1),
    (if (g_dtoa m).n - 1 < 0 then '-' else '+'), ?_, ?_, ?_, ?_, ?_, ?_⟩
  · simp only [hf, List.append_assoc]
  · intro hc
    rcases List.mem_append.mp hc with hc | hc
    · exact hsg hc
    · split_ifs at hc
      · exact e1 hc
      · simp only [List.mem_append, List.mem_singleton] at hc
        rcases hc with (hc | hc) | hc
        · exact e1 (List.mem_of_mem_take hc)
        · revert hc; decide
        · exact e1 (List.mem_of_mem_drop hc)
  · split_ifs with hlt
    · constructor
      · intro hc; exact absurd hc (by decide)
      · intro; omega
    · constructor
      · intro; omega
      · intro; rfl
  · split_ifs with hlt
    · constructor
      · intro; omega
      · intro; rfl
    · constructor
      · intro hc; exact absurd hc (by decide)
      · intro; omega
  · exact toDigits_head _ (by omega)
  · rw [toDigits_value, Int.natCast_natAbs]

theorem numberToString_exponential_form_witness :
    (constDtoa ⟨0, ['1', '5'], -6, true⟩ 0xBE8421F5F40D8376).n ≤ -6 ∨
      22 ≤ (constDtoa ⟨0, ['1', '5'], -6, true⟩ 0xBE8421F5F40D8376).n :=
  (numberToString_exponential_form (constDtoa ⟨0, ['1', '5'], -6, true⟩) 0xBE8421F5F40D8376
    (fun _ => by decide) (by decide)).2.1

/-! ### `numberToString`: the decimal value of the output -/

theorem isDigit_ne_minus (c : Char) (h : c.isDigit = true) : c ≠ '-' := by
  intro hc
  subst hc
  revert h
  decide

theorem span_digits (ip ex : List Char) (hip : ∀ c ∈ ip, c.isDigit = true)
    (hex : ex = [] ∨ ∃ c t, ex = c :: t ∧ c.isDigit = false) :
    (ip ++ ex).takeWhile Char.isDigit = ip ∧ (ip ++ ex).dropWhile Char.isDigit = ex := by
  rw [List.takeWhile_append_of_pos hip, List.dropWhile_append_of_pos hip]
  rcases hex with rfl | ⟨c, t, rfl, hc⟩
  · simp
  · rw [List.takeWhile_cons_of_neg (by simp [hc]), List.dropWhile_cons_of_neg (by simp [hc])]
    simp

/-- Reading `[-] ip [e...]`: integer digits and an exponent part. -/
theorem readDecimal_integer (sign : Bool) (ip ex : List Char) (e : Int)
    (hip : ∀ c ∈ ip, c.isDigit = true) (hne : ip ≠ [])
    (hex : ex = [] ∨ ∃ t, ex = 'e' :: t) (he : readExponent ex = some e) :
    readDecimal (signPrefix sign ++ (ip ++ ex))
      = some ((if sign then -1 else 1) * (digitsValue ip : ℚ) * (10 : ℚ) ^ e) := by
  have hex2 : ex = [] ∨ ∃ c t, ex = c :: t ∧ c.isDigit = false := by
    rcases hex with h | ⟨t, h⟩
    · exact Or.inl h
    · exact Or.inr ⟨'e', t, h, by decide⟩
  obtain ⟨htw, hdw⟩ := span_digits ip ex hip hex2
  have hfr : fractionDigits ex = [] := by
    rcases hex with rfl | ⟨u, rfl⟩ <;> rfl
  have haf : afterFraction ex = ex := by
    rcases hex with rfl | ⟨u, rfl⟩ <;> rfl
  obtain ⟨c, t, rfl⟩ := List.exists_cons_of_ne_nil hne
  have hcm : c ≠ '-' := isDigit_ne_minus c (hip c (List.mem_cons_self _ _))
  cases sign
  · have hhead : ((signPrefix false ++ (c :: t ++ ex)).head? == some '-') = false := by
      simp [signPrefix, hcm]
    unfold readDecimal
    simp only [hhead]
    simp only [signPrefix, Bool.false_eq_true, if_false, List.nil_append, htw, hdw, hfr, haf, he]
    simp
  · have hhead : ((signPrefix true ++ (c :: t ++ ex)).head? == some '-') = true := by
      simp [signPrefix]
    unfold readDecimal
    simp only [hhead]
    simp only [signPrefix, if_true, List.singleton_append, List.tail_cons, htw, hdw, hfr, haf,
      he]
    simp

/-- Reading `[-] ip . fp [e...]`: integer digits, fraction digits and an exponent part. -/
theorem readDecimal_fraction (sign : Bool) (ip fp ex : List Char) (e : Int)
    (hip : ∀ c ∈ ip, c.isDigit = true) (hne : ip ≠ [])
    (hfpd : ∀ c ∈ fp, c.isDigit = true)
    (hex : ex = [] ∨ ∃ t, ex = 'e' :: t) (he : readExponent ex = some e) :
    readDecimal (signPrefix sign ++ (ip ++ '.' :: (fp ++ ex)))
      = some ((if sign then -1 else 1) * (digitsValue (ip ++ fp) : ℚ)
          * (10 : ℚ) ^ (e - (fp.length : Int))) := by
  have hex2 : ex = [] ∨ ∃ c t, ex = c :: t ∧ c.isDigit = false := by
    rcases hex with h | ⟨t, h⟩
    · exact Or.inl h
    · exact Or.inr ⟨'e', t, h, by decide⟩
  obtain ⟨htw, hdw⟩ := span_digits ip ('.' :: (fp ++ ex)) hip
    (Or.inr ⟨'.', fp ++ ex, rfl, by decide⟩)
  obtain ⟨htw2, hdw2⟩ := span_digits fp ex hfpd hex2
  have hfr : fractionDigits ('.' :: (fp ++ ex)) = fp := by
    rw [fractionDigits, htw2]
  have haf : afterFraction ('.' :: (fp ++ ex)) = ex := by
    rw [afterFraction, hdw2]
  obtain ⟨c, t, rfl⟩ := List.exists_cons_of_ne_nil hne
  have hcm : c ≠ '-' := isDigit_ne_minus c (hip c (List.mem_cons_self _ _))
  cases sign
  · have hhead : ((signPrefix false ++ (c :: t ++ '.' :: (fp ++ ex))).head? == some '-')
        = false := by
      simp [signPrefix, hcm]
    unfold readDecimal
    simp only [hhead]
    simp only [signPrefix, Bool.false_eq_true, if_false, List.nil_append, htw, hdw, hfr, haf, he]
    simp
  · have hhead : ((signPrefix true ++ (c :: t ++ '.' :: (fp ++ ex))).head? == some '-')
        = true := by
      simp [signPrefix]
    unfold readDecimal
    simp only [hhead]
    simp only [signPrefix, if_true, List.singleton_append, List.tail_cons, htw, hdw, hfr, haf,
      he]
    simp

theorem digitsValue_replicate_zero (z : Nat) : digitsValue (List.replicate z '0') = 0 := by
  induction z with
  | zero => rfl
  | succ z ih =>
    have h0 : '0'.toNat - 48 = 0 := by decide
    rw [List.replicate_succ, digitsValue_cons, ih, h0]
    simp

/-- The exponent part `numberToString` prints for `x = n - 1` reads back as `x`. -/
theorem readExponent_numeral (x : Int) :
    readExponent ('e' :: (if x < 0 then '-' else '+') :: Nat.toDigits 10 x.natAbs)
      = some x := by
  have hne : Nat.toDigits 10 x.natAbs ≠ [] := by
    intro h
    have := toDigits_length_pos x.natAbs
    rw [h] at this
    simp at this
  have hall : (Nat.toDigits 10 x.natAbs).all Char.isDigit = true := by
    rw [List.all_eq_true]
    exact toDigits_all_isDigit _
  split_ifs with hx
  · simp only [readExponent, hne, hall, ne_eq, not_false_eq_true, and_self, if_true,
      toDigits_value, Option.some.injEq]
    omega
  · simp only [readExponent, hne, hall, ne_eq, not_false_eq_true, and_self, if_true,
      toDigits_value, Option.some.injEq]
    omega

/-- The string of the first matching case A..E, with its optional sign, reads as the value
the generator reported. -/
theorem readDecimal_formatSpec (ptr : Nat) (sign : Bool) (s : List Char) (n : Int)
    (hs : ∀ c ∈ s, c.isDigit = true) (hk : 1 ≤ s.length) :
    readDecimal (signPrefix sign ++ formatSpec s n) = some (dtoaValue ⟨ptr, s, n, sign⟩) := by
  have hsne : s ≠ [] := by
    intro h
    rw [h] at hk
    simp at hk
  have h10 : (10 : ℚ) ≠ 0 := by norm_num
  unfold dtoaValue
  simp only []
  by_cases hA : (s.length : Int) ≤ n ∧ n ≤ 21
  · have hf : formatSpec s n = (s ++ List.replicate (n - s.length).toNat '0') ++ [] := by
      simp only [formatSpec, if_pos hA, List.append_nil]
    rw [hf, readDecimal_integer sign _ [] 0 _ _ (Or.inl rfl) rfl]
    · rw [digitsValue_append, digitsValue_replicate_zero, List.length_replicate]
      have hz : n - (s.length : Int) = (((n - s.length).toNat : Nat) : Int) := by omega
      rw [hz, zpow_natCast]
      push_cast
      simp only [zpow_zero, add_zero, mul_one, Int.toNat_of_nonneg (by omega : 0 ≤ n - s.length)]
      congr 1
      ring
    · intro c hc
      rcases List.mem_append.mp hc with hc | hc
      · exact hs c hc
      · rw [(List.mem_replicate.mp hc).2]
        decide
    · simp [hsne]
  by_cases hB : 0 < n ∧ n ≤ 21
  · have hf : formatSpec s n = s.take n.toNat ++ '.' :: (s.drop n.toNat ++ []) := by
      simp only [formatSpec, if_neg hA, if_pos hB, List.append_nil, List.append_assoc,
        List.singleton_append]
    rw [hf, readDecimal_fraction sign _ _ [] 0 _ _ _ (Or.inl rfl) rfl]
    · rw [List.take_append_drop, List.length_drop]
      have hle : n.toNat ≤ s.length := by omega
      have hx : (0 : Int) - ((s.length - n.toNat : Nat) : Int) = n - (s.length : Int) := by
        rw [Nat.cast_sub hle]
        omega
      rw [hx]
    · intro c hc
      exact hs c (List.mem_of_mem_take hc)
    · intro h
      have hl := congrArg List.length h
      simp only [List.length_take, List.length_nil] at hl
      omega
    · intro c hc
      exact hs c (List.mem_of_mem_drop hc)
  by_cases hC : -6 < n ∧ n ≤ 0
  · have hf : formatSpec s n
        = ['0'] ++ '.' :: ((List.replicate (-n).toNat '0' ++ s) ++ []) := by
      simp only [formatSpec, if_neg hA, if_neg hB, if_pos hC, List.append_nil,
        List.append_assoc, List.cons_append, List.nil_append]
    rw [hf, readDecimal_fraction sign _ _ [] 0 _ _ _ (Or.inl rfl) rfl]
    · rw [digitsValue_append, digitsValue_append, digitsValue_replicate_zero]
      have h0 : digitsValue ['0'] = 0 := rfl
      rw [h0]
      simp only [zero_mul, zero_add, List.length_append, List.length_replicate]
      have hx : (0 : Int) - (((-n).toNat + s.length : Nat) : Int) = n - (s.length : Int) := by
        push_cast
        omega
      rw [hx]
    · decide
    · decide
    · intro c hc
      rcases List.mem_append.mp hc with hc | hc
      · rw [(List.mem_replicate.mp hc).2]
        decide
      · exact hs c hc
  by_cases hD : (s.length : Int) = 1
  · have hf : formatSpec s n
        = s ++ 'e' :: (if n - 1 < 0 then '-' else '+') :: Nat.toDigits 10 (n - 1).natAbs := by
      simp only [formatSpec, if_neg hA, if_neg hB, if_neg hC, if_pos hD, List.append_assoc,
        List.cons_append, List.nil_append]
    rw [hf, readDecimal_integer sign _ _ (n - 1) hs hsne (Or.inr ⟨_, rfl⟩)
      (readExponent_numeral (n - 1)), hD]
  · have hf : formatSpec s n
        = s.take 1 ++ '.' :: (s.drop 1 ++
            'e' :: (if n - 1 < 0 then '-' else '+') :: Nat.toDigits 10 (n - 1).natAbs) := by
      simp only [formatSpec, if_neg hA, if_neg hB, if_neg hC, if_neg hD, List.append_assoc,
        List.cons_append, List.nil_append]
    rw [hf, readDecimal_fraction sign _ _ _ (n - 1) _ _ _ (Or.inr ⟨_, rfl⟩)
      (readExponent_numeral (n - 1))]
    · rw [List.take_append_drop, List.length_drop]
      have hx : n - 1 - ((s.length - 1 : Nat) : Int) = n - (s.length : Int) := by
        rw [Nat.cast_sub hk]
        omega
      rw [hx]
    · intro c hc
      exact hs c (List.mem_of_mem_take hc)
    · intro h
      have hl := congrArg List.length h
      simp only [List.length_take, List.length_nil] at hl
      omega
    · intro c hc
      exact hs c (List.mem_of_mem_drop hc)

/-- C4: for a finite non-zero input whose generator output has `k >= 1` digits `'0'..'9'`
(`k` and `n` within `int` range), the string `numberToString` writes before the terminator,
read as a decimal literal (optional `-`, integer digits, optional `.` fraction, optional `e`
with signed exponent), denotes exactly `(-1)^sign * (s read as an integer) * 10^(n - k)`;
hence any reader `toDouble` of rationals that maps the generator's value back to `m` maps the
value of the written string to `m` as well. -/
theorem numberToString_denotes_generator_value (g_dtoa : Nat → DtoaResult) (m : Nat)
    (hm : isSpecial m = false)
    (hk : 1 ≤ (g_dtoa m).s.length) (hk2 : (g_dtoa m).s.length < 2147483648)
    (h1 : -2147483647 < (g_dtoa m).n) (h2 : (g_dtoa m).n < 2147483648)
    (hs : ∀ c ∈ (g_dtoa m).s, c.isDigit = true) :
    readDecimal ((numberToString g_dtoa m).dest.take (numberToString g_dtoa m).ret)
      = some (dtoaValue (g_dtoa m)) ∧
    ∀ toDouble : ℚ → Nat, toDouble (dtoaValue (g_dtoa m)) = m →
      (readDecimal ((numberToString g_dtoa m).dest.take (numberToString g_dtoa m).ret)).map
        toDouble = some m := by
  have hv : readDecimal ((numberToString g_dtoa m).dest.take (numberToString g_dtoa m).ret)
      = some (dtoaValue (g_dtoa m)) := by
    rw [numberToString_general g_dtoa m hm, formatDigits_eq_formatSpec _ _ hk hk2 h1 h2]
    simp only [List.length_append, List.length_cons, List.length_nil, Nat.add_sub_cancel]
    rw [← List.length_append, List.take_left]
    exact readDecimal_formatSpec (g_dtoa m).ptr (g_dtoa m).sign (g_dtoa m).s (g_dtoa m).n hs hk
  refine ⟨hv, ?_⟩
  intro toDouble ht
  rw [hv, Option.map_some', ht]

theorem numberToString_denotes_generator_value_witness :
    readDecimal ((numberToString (constDtoa ⟨0, ['1', '5'], -6, true⟩) 0xBE8421F5F40D8376).dest.take
        (numberToString (constDtoa ⟨0, ['1', '5'], -6, true⟩) 0xBE8421F5F40D8376).ret)
      = some (dtoaValue (constDtoa ⟨0, ['1', '5'], -6, true⟩ 0xBE8421F5F40D8376)) :=
  (numberToString_denotes_generator_value (constDtoa ⟨0, ['1', '5'], -6, true⟩)
    0xBE8421F5F40D8376 (by decide) (by decide) (by decide) (by decide) (by decide)
    (by decide)).1

/-! ### `numberToString`: distinct generator outputs give distinct strings -/

theorem isNormalised_spec (s : List Char) (h : isNormalised s = true) :
    s ≠ [] ∧ (∀ c ∈ s, c.isDigit = true) ∧ s.head? ≠ some '0' ∧ s.getLast? ≠ some '0' := by
  simp only [isNormalised, Bool.and_eq_true, Bool.not_eq_true', List.isEmpty_eq_false,
    List.all_eq_true, bne_iff_ne, ne_eq] at h
  obtain ⟨⟨⟨h1, h2⟩, h3⟩, h4⟩ := h
  exact ⟨h1, h2, h3, h4⟩

theorem isDigit_toNat (c : Char) (h : c.isDigit = true) : 48 ≤ c.toNat ∧ c.toNat ≤ 57 := by
  simp only [Char.isDigit, Bool.and_eq_true, decide_eq_true_eq] at h
  obtain ⟨h1, h2⟩ := h
  rw [ge_iff_le, UInt32.le_def] at h1
  rw [UInt32.le_def] at h2
  exact ⟨h1, h2⟩

theorem char_eq_of_toNat (c d : Char) (h : c.toNat = d.toNat) : c = d := by
  apply Char.ext
  apply UInt32.ext
  exact h

theorem digit_ne_zero_toNat (c : Char) (h : c.isDigit = true) (h0 : c ≠ '0') :
    49 ≤ c.toNat := by
  have h1 := (isDigit_toNat c h).1
  by_contra hlt
  have h48 : c.toNat = ('0' : Char).toNat := by
    have : ('0' : Char).toNat = 48 := by decide
    omega
  exact h0 (char_eq_of_toNat c '0' h48)

theorem digitsValue_lt (s : List Char) (hs : ∀ c ∈ s, c.isDigit = true) :
    digitsValue s < 10 ^ s.length := by
  induction s with
  | nil => simp [digitsValue]
  | cons c t ih =>
    have ht := ih (fun d hd => hs d (List.mem_cons_of_mem _ hd))
    have hc := isDigit_toNat c (hs c (List.mem_cons_self _ _))
    rw [digitsValue_cons, List.length_cons, pow_succ]
    have hd : c.toNat - 48 ≤ 9 := by omega
    have := Nat.mul_le_mul_right (10 ^ t.length) hd
    omega

theorem digitsValue_ge (c : Char) (t : List Char) (hc : c.isDigit = true) (h0 : c ≠ '0') :
    10 ^ t.length ≤ digitsValue (c :: t) := by
  have h49 := digit_ne_zero_toNat c hc h0
  rw [digitsValue_cons]
  have hd : 1 ≤ c.toNat - 48 := by omega
  have := Nat.mul_le_mul_right (10 ^ t.length) hd
  omega

theorem digitsValue_inj_of_length (s : List Char) :
    ∀ s2 : List Char, (∀ c ∈ s, c.isDigit = true) → (∀ c ∈ s2, c.isDigit = true) →
      s.length = s2.length → digitsValue s = digitsValue s2 → s = s2 := by
  induction s with
  | nil =>
    intro s2 _ _ hl _
    exact (List.length_eq_zero.mp hl.symm).symm
  | cons c t ih =>
    intro s2 hs hs2 hl hv
    cases s2 with
    | nil => simp at hl
    | cons c2 t2 =>
      have hlt : t.length = t2.length := by simpa using hl
      have ht := digitsValue_lt t (fun d hd => hs d (List.mem_cons_of_mem _ hd))
      have ht2 := digitsValue_lt t2 (fun d hd => hs2 d (List.mem_cons_of_mem _ hd))
      have hc := isDigit_toNat c (hs c (List.mem_cons_self _ _))
      have hc2 := isDigit_toNat c2 (hs2 c2 (List.mem_cons_self _ _))
      rw [digitsValue_cons, digitsValue_cons, ← hlt] at hv
      rw [← hlt] at ht2
      have hP : 0 < 10 ^ t.length := Nat.pow_pos (by norm_num)
      have hq := congrArg (fun x => x / 10 ^ t.length) hv
      have hr := congrArg (fun x => x % 10 ^ t.length) hv
      simp only [Nat.mul_comm _ (10 ^ t.length), Nat.mul_add_div hP, Nat.mul_add_mod,
        Nat.div_eq_of_lt ht, Nat.div_eq_of_lt ht2, Nat.mod_eq_of_lt ht, Nat.mod_eq_of_lt ht2,
        Nat.add_zero] at hq hr
      have hcc : c = c2 := char_eq_of_toNat c c2 (by omega)
      have htt : t = t2 := ih t2 (fun d hd => hs d (List.mem_cons_of_mem _ hd))
        (fun d hd => hs2 d (List.mem_cons_of_mem _ hd)) hlt hr
      rw [hcc, htt]

theorem length_le_of_digitsValue (c : Char) (t s2 : List Char) (hc : c.isDigit = true)
    (h0 : c ≠ '0') (hs2 : ∀ d ∈ s2, d.isDigit = true)
    (hv : digitsValue (c :: t) = digitsValue s2) : (c :: t).length ≤ s2.length := by
  have h1 := digitsValue_ge c t hc h0
  have h2 := digitsValue_lt s2 hs2
  rw [hv] at h1
  have hlt : 10 ^ t.length < 10 ^ s2.length := lt_of_le_of_lt h1 h2
  have := (Nat.pow_lt_pow_iff_right (by norm_num : 1 < 10)).mp hlt
  simp only [List.length_cons]
  omega

/-- Digit strings with no leading zero are determined by their value. -/
theorem digitsValue_inj (s s2 : List Char) (hn : isNormalised s = true)
    (hn2 : isNormalised s2 = true) (hv : digitsValue s = digitsValue s2) : s = s2 := by
  obtain ⟨a1, a2, a3, _⟩ := isNormalised_spec s hn
  obtain ⟨b1, b2, b3, _⟩ := isNormalised_spec s2 hn2
  obtain ⟨c, t, rfl⟩ := List.exists_cons_of_ne_nil a1
  obtain ⟨c2, t2, rfl⟩ := List.exists_cons_of_ne_nil b1
  have hc0 : c ≠ '0' := fun h => a3 (by rw [h]; rfl)
  have hc20 : c2 ≠ '0' := fun h => b3 (by rw [h]; rfl)
  have l1 := length_le_of_digitsValue c t (c2 :: t2) (a2 c (List.mem_cons_self _ _)) hc0 b2 hv
  have l2 := length_le_of_digitsValue c2 t2 (c :: t) (b2 c2 (List.mem_cons_self _ _)) hc20 a2
    hv.symm
  exact digitsValue_inj_of_length _ _ a2 b2 (by omega) hv

theorem digitsValue_pos (s : List Char) (hn : isNormalised s = true) : 0 < digitsValue s := by
  obtain ⟨a1, a2, a3, _⟩ := isNormalised_spec s hn
  obtain ⟨c, t, rfl⟩ := List.exists_cons_of_ne_nil a1
  have hc0 : c ≠ '0' := fun h => a3 (by rw [h]; rfl)
  have := digitsValue_ge c t (a2 c (List.mem_cons_self _ _)) hc0
  have hP : 0 < 10 ^ t.length := Nat.pow_pos (by norm_num)
  omega

theorem digitsValue_not_dvd (s : List Char) (hn : isNormalised s = true) :
    ¬ 10 ∣ digitsValue s := by
  obtain ⟨a1, a2, _, a4⟩ := isNormalised_spec s hn
  rcases List.eq_nil_or_concat s with h | ⟨L, l, h⟩
  · exact absurd h a1
  · rw [List.concat_eq_append] at h
    subst h
    have hl : l.isDigit = true := a2 l (by simp)
    have hl0 : l ≠ '0' := by
      intro h
      apply a4
      rw [h]
      simp
    have h49 := digit_ne_zero_toNat l hl hl0
    have h57 := (isDigit_toNat l hl).2
    rw [digitsValue_append, digitsValue_cons]
    simp only [List.length_singleton, List.length_nil, pow_one, pow_zero, mul_one]
    have : digitsValue [] = 0 := rfl
    rw [this]
    omega

theorem scale_eq_of_le (S S2 : Nat) (a b : Int) (h1 : ¬ 10 ∣ S) (hab : a ≤ b)
    (h : (S : ℚ) * (10 : ℚ) ^ a = (S2 : ℚ) * (10 : ℚ) ^ b) : a = b ∧ S = S2 := by
  have h10 : (10 : ℚ) ≠ 0 := by norm_num
  obtain ⟨d, hd⟩ : ∃ d : Nat, b = a + (d : Int) := ⟨(b - a).toNat, by omega⟩
  rw [hd, zpow_add₀ h10, zpow_natCast] at h
  have hpa : (10 : ℚ) ^ a ≠ 0 := zpow_ne_zero a h10
  have h2 : (S : ℚ) = (S2 : ℚ) * (10 : ℚ) ^ d := by
    have h3 : (S : ℚ) * (10 : ℚ) ^ a = ((S2 : ℚ) * (10 : ℚ) ^ d) * (10 : ℚ) ^ a := by
      rw [h]; ring
    exact mul_right_cancel₀ hpa h3
  have h4 : S = S2 * 10 ^ d := by
    have : ((S : Nat) : ℚ) = ((S2 * 10 ^ d : Nat) : ℚ) := by
      rw [h2]; push_cast; ring
    exact Nat.cast_injective this
  cases d with
  | zero =>
    simp only [pow_zero, mul_one] at h4
    exact ⟨by rw [hd]; simp, h4⟩
  | succ d =>
    exfalso
    apply h1
    rw [h4, pow_succ]
    exact ⟨S2 * 10 ^ d, by ring⟩

theorem scale_eq (S S2 : Nat) (a b : Int) (h1 : ¬ 10 ∣ S) (h2 : ¬ 10 ∣ S2)
    (h : (S : ℚ) * (10 : ℚ) ^ a = (S2 : ℚ) * (10 : ℚ) ^ b) : a = b ∧ S = S2 := by
  rcases le_total a b with hab | hab
  · exact scale_eq_of_le S S2 a b h1 hab h
  · obtain ⟨e1, e2⟩ := scale_eq_of_le S2 S b a h2 hab h.symm
    exact ⟨e1.symm, e2.symm⟩

theorem signed_eq (sg sg2 : Bool) (x y : ℚ) (hx : 0 < x) (hy : 0 < y)
    (h : (if sg then -1 else 1) * x = (if sg2 then -1 else 1) * y) : sg = sg2 ∧ x = y := by
  cases sg <;> cases sg2 <;> simp only [Bool.false_eq_true, if_false, if_true, one_mul] at h
  · exact ⟨rfl, h⟩
  · exfalso; linarith
  · exfalso; linarith
  · exact ⟨rfl, by linarith⟩

/-- The generator's value determines a normalised output. -/
theorem dtoaValue_inj (r r2 : DtoaResult) (hn : isNormalised r.s = true)
    (hn2 : isNormalised r2.s = true) (h : dtoaValue r = dtoaValue r2) :
    r.sign = r2.sign ∧ r.s = r2.s ∧ r.n = r2.n := by
  have h10 : (0 : ℚ) < 10 := by norm_num
  have p1 : (0 : ℚ) < (digitsValue r.s : ℚ) * (10 : ℚ) ^ (r.n - (r.s.length : Int)) :=
    mul_pos (by exact_mod_cast digitsValue_pos r.s hn) (zpow_pos h10 _)
  have p2 : (0 : ℚ) < (digitsValue r2.s : ℚ) * (10 : ℚ) ^ (r2.n - (r2.s.length : Int)) :=
    mul_pos (by exact_mod_cast digitsValue_pos r2.s hn2) (zpow_pos h10 _)
  unfold dtoaValue at h
  rw [mul_assoc, mul_assoc] at h
  obtain ⟨e1, e2⟩ := signed_eq _ _ _ _ p1 p2 h
  obtain ⟨e3, e4⟩ := scale_eq _ _ _ _ (digitsValue_not_dvd r.s hn)
    (digitsValue_not_dvd r2.s hn2) e2
  have e5 : r.s = r2.s := digitsValue_inj r.s r2.s hn hn2 e4
  rw [e5] at e3
  exact ⟨e1, e5, by omega⟩

theorem dtoaValue_ne_zero (r : DtoaResult) (hn : isNormalised r.s = true) :
    dtoaValue r ≠ 0 := by
  have h10 : (0 : ℚ) < 10 := by norm_num
  have p1 : (0 : ℚ) < (digitsValue r.s : ℚ) * (10 : ℚ) ^ (r.n - (r.s.length : Int)) :=
    mul_pos (by exact_mod_cast digitsValue_pos r.s hn) (zpow_pos h10 _)
  unfold dtoaValue
  rw [mul_assoc]
  split_ifs <;> linarith

theorem readDecimal_special :
    readDecimal ['N', 'a', 'N'] = none ∧
    readDecimal ['0'] = some 0 ∧
    readDecimal ['I', 'n', 'f', 'i', 'n', 'i', 't', 'y'] = none ∧
    readDecimal ['-', 'I', 'n', 'f', 'i', 'n', 'i', 't', 'y'] = none := by
  refine ⟨by decide, ?_, by decide, by decide⟩
  have := readDecimal_integer false ['0'] [] 0 (by decide) (by decide) (Or.inl rfl) rfl
  have h0 : digitsValue ['0'] = 0 := rfl
  simpa [signPrefix, h0] using this

theorem general_dest_value (g_dtoa : Nat → DtoaResult) (m : Nat) (hm : isSpecial m = false)
    (hn : isNormalised (g_dtoa m).s = true) (hk : (g_dtoa m).s.length < 2147483648)
    (h1 : -2147483647 < (g_dtoa m).n) (h2 : (g_dtoa m).n < 2147483648) :
    ∃ body, (numberToString g_dtoa m).dest = body ++ [NUL] ∧
      readDecimal body = some (dtoaValue (g_dtoa m)) := by
  obtain ⟨a1, a2, _, _⟩ := isNormalised_spec _ hn
  have hk1 : 1 ≤ (g_dtoa m).s.length := List.length_pos.mpr a1
  refine ⟨signPrefix (g_dtoa m).sign ++ formatSpec (g_dtoa m).s (g_dtoa m).n, ?_, ?_⟩
  · rw [numberToString_general g_dtoa m hm, formatDigits_eq_formatSpec _ _ hk1 hk h1 h2]
  · exact readDecimal_formatSpec (g_dtoa m).ptr (g_dtoa m).sign (g_dtoa m).s (g_dtoa m).n a2 hk1

/-- C19: `numberToString` is injective on normalised generator outputs: for two finite
non-zero inputs whose generator outputs have non-empty digit strings of `'0'..'9'` with no
leading and no trailing `'0'` (lengths and indices within `int` range), equal written strings
force equal sign flags, equal digit strings and equal indices; and the string written for such
an output is none of the strings `NaN`, `0`, `Infinity`, `-Infinity` written on the special
paths. -/
theorem numberToString_injective (g_dtoa g_dtoa2 : Nat → DtoaResult) (m m2 : Nat)
    (hm : isSpecial m = false) (hm2 : isSpecial m2 = false)
    (hn : isNormalised (g_dtoa m).s = true) (hn2 : isNormalised (g_dtoa2 m2).s = true)
    (hk : (g_dtoa m).s.length < 2147483648) (hk2 : (g_dtoa2 m2).s.length < 2147483648)
    (h1 : -2147483647 < (g_dtoa m).n) (h2 : (g_dtoa m).n < 2147483648)
    (h3 : -2147483647 < (g_dtoa2 m2).n) (h4 : (g_dtoa2 m2).n < 2147483648) :
    ((numberToString g_dtoa m).dest = (numberToString g_dtoa2 m2).dest →
      (g_dtoa m).sign = (g_dtoa2 m2).sign ∧ (g_dtoa m).s = (g_dtoa2 m2).s ∧
      (g_dtoa m).n = (g_dtoa2 m2).n) ∧
    (numberToString g_dtoa m).dest ≠ strcpy ['N', 'a', 'N'] ∧
    (numberToString g_dtoa m).dest ≠ strcpy ['0'] ∧
    (numberToString g_dtoa m).dest ≠ strcpy ['I', 'n', 'f', 'i', 'n', 'i', 't', 'y'] ∧
    (numberToString g_dtoa m).dest ≠ strcpy ['-', 'I', 'n', 'f', 'i', 'n', 'i', 't', 'y'] ∧
    ∀ (g0 : Nat → DtoaResult) (m0 : Nat), isSpecial m0 = true →
      (numberToString g0 m0).dest ≠ (numberToString g_dtoa m).dest := by
  obtain ⟨body, hb, hv⟩ := general_dest_value g_dtoa m hm hn hk h1 h2
  obtain ⟨body2, hb2, hv2⟩ := general_dest_value g_dtoa2 m2 hm2 hn2 hk2 h3 h4
  obtain ⟨s1, s2, s3, s4⟩ := readDecimal_special
  have hnz := dtoaValue_ne_zero (g_dtoa m) hn
  have key : ∀ x : List Char, (readDecimal x = none ∨ readDecimal x = some 0) →
      (numberToString g_dtoa m).dest ≠ strcpy x := by
    intro x hx he
    rw [hb, strcpy] at he
    have hbx : body = x := List.append_cancel_right he
    rw [hbx] at hv
    rcases hx with hx | hx
    · rw [hx] at hv
      exact absurd hv (by simp)
    · rw [hx] at hv
      exact hnz (Option.some.inj hv).symm
  have k1 := key _ (Or.inl s1)
  have k2 := key _ (Or.inr s2)
  have k3 := key _ (Or.inl s3)
  have k4 := key _ (Or.inl s4)
  refine ⟨?_, k1, k2, k3, k4, ?_⟩
  · intro he
    rw [hb, hb2] at he
    have hbb : body = body2 := List.append_cancel_right he
    rw [hbb, hv2] at hv
    exact (dtoaValue_inj _ _ hn2 hn (Option.some.inj hv)).imp Eq.symm
      (fun h => h.imp Eq.symm Eq.symm)
  · intro g0 m0 hs0 he
    rcases numberToString_special g0 m0 hs0 with e | e | e | e <;> rw [e] at he
    · exact k1 he.symm
    · exact k2 he.symm
    · exact k3 he.symm
    · exact k4 he.symm

theorem numberToString_injective_witness :
    (numberToString (constDtoa ⟨0, ['1', '5'], -6, true⟩) 0xBE8421F5F40D8376).dest
      ≠ strcpy ['0'] :=
  (numberToString_injective (constDtoa ⟨0, ['1', '5'], -6, true⟩)
    (constDtoa ⟨0, ['2'], 1, false⟩) 0xBE8421F5F40D8376 0x4000000000000000
    (by decide) (by decide) (by decide) (by decide) (by decide) (by decide) (by decide)
    (by decide) (by decide) (by decide)).2.2.1

end hermes
